import Mathlib

/-!
# Verification of the JSONElement core (json-element.js)

A shallow embedding of the schema compiler, JSON assembler, change batching
protocol and structural diff engine of the JSONElement web component, together
with proofs of the properties its specification states.

Modelling conventions:

* JSON values are the inductive `Json` below.  Numbers are modelled as `Int`
  (the diff engine and the coercion getters only ever compare numbers for
  equality or produce them from decimal attribute strings, so the double
  representation is irrelevant to every property treated here; JSON itself has
  no `NaN`).
* JavaScript `undefined` is `Option.none` wherever a value may be absent.
* JavaScript strict equality (`===`) on two values is `jsStrictEq`.  For
  primitives it is value equality.  For objects and arrays it is *reference*
  equality, which a pure value embedding cannot observe; `jsStrictEq` returns
  `false` there, which models the case of two distinct references.  The only
  place this matters is the `prev === next` short-circuit in `diff`, and
  `diff_self` below shows that the recursion computes `[]` on identical values
  anyway, so the embedding and the source agree on all outputs.
-/

namespace JsonElement

/-- JSON-like values, as handled by json-element.js.  Objects are ordered
association lists, mirroring JavaScript insertion-ordered objects. -/
inductive Json where
  | null : Json
  | bool (b : Bool) : Json
  | num (n : Int) : Json
  | str (s : String) : Json
  | arr (elems : List Json) : Json
  | obj (entries : List (String × Json)) : Json

/-- `isScalar` from the source: `typeof x !== "object" || x === null`.
`null`, booleans, numbers and strings are scalars; arrays and objects are not. -/
def isScalar : Json → Bool
  | .null => true
  | .bool _ => true
  | .num _ => true
  | .str _ => true
  | .arr _ => false
  | .obj _ => false

/-- `typeof x === "object"` in JavaScript: true for `null`, arrays and objects. -/
def typeofObject : Json → Bool
  | .null => true
  | .arr _ => true
  | .obj _ => true
  | _ => false

/-- JavaScript `===` on two JSON values.  Value equality on primitives
(`null === null` is true); `false` on arrays/objects, modelling two distinct
references (see the module docstring). -/
def jsStrictEq : Json → Json → Bool
  | .null, .null => true
  | .bool a, .bool b => a == b
  | .num a, .num b => a == b
  | .str a, .str b => a == b
  | _, _ => false

theorem jsStrictEq_eq {a b : Json} (h : jsStrictEq a b = true) : a = b := by
  cases a <;> cases b <;> simp_all [jsStrictEq]

theorem jsStrictEq_refl_of_not_typeofObject {a : Json} (h : typeofObject a = false) :
    jsStrictEq a a = true := by
  cases a <;> simp_all [jsStrictEq, typeofObject]

/-! ## Decimal rendering of array indices

`keys` in the source renders array indices with `"" + i`, JavaScript's standard
decimal rendering of a non-negative integer.  `natDigits`/`natToString` model
that rendering. -/

/-- The decimal digit characters of `n`, most significant first. -/
def natDigits (n : Nat) : List Char :=
  if h : n < 10 then [Char.ofNat (48 + n)]
  else
    have : n / 10 < n := Nat.div_lt_self (by omega) (by omega)
    natDigits (n / 10) ++ [Char.ofNat (48 + n % 10)]

/-- JavaScript's `"" + i` for a non-negative integer `i`. -/
def natToString (n : Nat) : String := String.mk (natDigits n)

theorem natDigits_lt {n : Nat} (h : n < 10) : natDigits n = [Char.ofNat (48 + n)] := by
  rw [natDigits]
  simp [h]

theorem natDigits_ge {n : Nat} (h : ¬n < 10) :
    natDigits n = natDigits (n / 10) ++ [Char.ofNat (48 + n % 10)] := by
  rw [natDigits]
  simp [h]

theorem natDigits_ne_nil (n : Nat) : natDigits n ≠ [] := by
  by_cases h : n < 10
  · rw [natDigits_lt h]
    simp
  · rw [natDigits_ge h]
    simp

theorem toNat_digitChar {d : Nat} (h : d < 10) : (Char.ofNat (48 + d)).toNat = 48 + d := by
  interval_cases d <;> decide

theorem digitChar_inj {a b : Nat} (ha : a < 10) (hb : b < 10)
    (h : Char.ofNat (48 + a) = Char.ofNat (48 + b)) : a = b := by
  have := congrArg Char.toNat h
  rw [toNat_digitChar ha, toNat_digitChar hb] at this
  omega

theorem natDigits_inj : ∀ {a b : Nat}, natDigits a = natDigits b → a = b := by
  intro a
  induction a using Nat.strong_induction_on with
  | _ a ih =>
    intro b h
    by_cases ha : a < 10 <;> by_cases hb : b < 10
    · rw [natDigits_lt ha, natDigits_lt hb] at h
      exact digitChar_inj ha hb (by injection h)
    · rw [natDigits_lt ha, natDigits_ge hb] at h
      have hlen := congrArg List.length h
      simp only [List.length_append, List.length_cons, List.length_nil] at hlen
      have := List.length_pos.mpr (natDigits_ne_nil (b / 10))
      omega
    · rw [natDigits_ge ha, natDigits_lt hb] at h
      have hlen := congrArg List.length h
      simp only [List.length_append, List.length_cons, List.length_nil] at hlen
      have := List.length_pos.mpr (natDigits_ne_nil (a / 10))
      omega
    · rw [natDigits_ge ha, natDigits_ge hb] at h
      have h2 := List.append_inj h (by
        have h1 := congrArg List.length h
        simp only [List.length_append, List.length_cons, List.length_nil] at h1
        omega)
      obtain ⟨hpre, hlast⟩ := h2
      have hd : a / 10 = b / 10 := ih (a / 10) (Nat.div_lt_self (by omega) (by omega)) hpre
      have hm : a % 10 = b % 10 := by
        have hc : Char.ofNat (48 + a % 10) = Char.ofNat (48 + b % 10) := by injection hlast
        exact digitChar_inj (Nat.mod_lt _ (by omega)) (Nat.mod_lt _ (by omega)) hc
      omega

theorem natToString_inj {a b : Nat} (h : natToString a = natToString b) : a = b := by
  apply natDigits_inj
  have := congrArg String.data h
  simpa [natToString] using this

theorem mem_natDigits_range {n : Nat} {c : Char} (h : c ∈ natDigits n) :
    48 ≤ c.toNat ∧ c.toNat ≤ 57 := by
  induction n using Nat.strong_induction_on with
  | _ n ih =>
    by_cases hlt : n < 10
    · rw [natDigits_lt hlt] at h
      simp at h
      subst h
      rw [toNat_digitChar hlt]
      omega
    · rw [natDigits_ge hlt, List.mem_append] at h
      rcases h with h | h
      · exact ih (n / 10) (Nat.div_lt_self (by omega) (by omega)) h
      · simp at h
        subst h
        rw [toNat_digitChar (Nat.mod_lt _ (by omega))]
        omega

theorem natDigits_no_tilde_slash {n : Nat} {c : Char} (h : c ∈ natDigits n) :
    c ≠ '~' ∧ c ≠ '/' := by
  have hr := mem_natDigits_range h
  constructor <;> intro hc <;> subst hc
  · rw [show ('~' : Char).toNat = 126 from rfl] at hr
    omega
  · rw [show ('/' : Char).toNat = 47 from rfl] at hr
    omega

/-! ## JSON Pointer path construction (`append` in the source)

`append(path, prop)` returns `path + "/" + prop.replace(/~/g, "~0").replace(/\//g, "~1")`.
`replaceChar` models `String.prototype.replace` with a global single-character
pattern: every occurrence of the character is rewritten, left to right. -/

/-- `s.replace(/c/g, r)` at the character-list level, for a single-character
pattern `c` and replacement `r`. -/
def replaceChar (c : Char) (r : List Char) : List Char → List Char
  | [] => []
  | x :: xs => if x = c then r ++ replaceChar c r xs else x :: replaceChar c r xs

/-- The escaped form of one path segment: first `~` → `~0`, then `/` → `~1`,
exactly as the two sequential `replace` calls in the source perform it. -/
def escapeSegment (cs : List Char) : List Char :=
  replaceChar '/' ['~', '1'] (replaceChar '~' ['~', '0'] cs)

/-- `append` from the source: `path + "/" + <escaped prop>`. -/
def append (path prop : String) : String :=
  path ++ "/" ++ String.mk (escapeSegment prop.data)

/-- The specification's description of segment escaping: each character is
rewritten independently, `~` to `~0` and `/` to `~1`, all others kept. -/
def escapeSegmentSpec (cs : List Char) : List Char :=
  cs.flatMap fun c => if c = '~' then ['~', '0'] else if c = '/' then ['~', '1'] else [c]

theorem replaceChar_append (c : Char) (r : List Char) (a b : List Char) :
    replaceChar c r (a ++ b) = replaceChar c r a ++ replaceChar c r b := by
  induction a with
  | nil => rfl
  | cons x xs ih =>
    simp only [List.cons_append, replaceChar]
    split <;> simp [ih]

theorem replaceChar_cons (c : Char) (r : List Char) (x : Char) (xs : List Char) :
    replaceChar c r (x :: xs) =
      if x = c then r ++ replaceChar c r xs else x :: replaceChar c r xs := rfl

theorem escapeSegment_cons (x : Char) (xs : List Char) :
    escapeSegment (x :: xs) =
      (if x = '~' then ['~', '0'] else if x = '/' then ['~', '1'] else [x]) ++
        escapeSegment xs := by
  by_cases hx : x = '~'
  · subst hx
    have h1 : replaceChar '~' ['~', '0'] ('~' :: xs) =
        '~' :: '0' :: replaceChar '~' ['~', '0'] xs := by
      rw [replaceChar_cons, if_pos rfl]
      rfl
    have h2 : replaceChar '/' ['~', '1'] ('~' :: '0' :: replaceChar '~' ['~', '0'] xs) =
        '~' :: '0' :: replaceChar '/' ['~', '1'] (replaceChar '~' ['~', '0'] xs) := by
      rw [replaceChar_cons, if_neg (show ('~' : Char) ≠ '/' by decide),
        replaceChar_cons, if_neg (show ('0' : Char) ≠ '/' by decide)]
    show replaceChar '/' ['~', '1'] (replaceChar '~' ['~', '0'] ('~' :: xs)) = _
    rw [h1, h2, if_pos rfl]
    rfl
  · by_cases hs : x = '/'
    · subst hs
      have h1 : replaceChar '~' ['~', '0'] ('/' :: xs) =
          '/' :: replaceChar '~' ['~', '0'] xs := by
        rw [replaceChar_cons, if_neg (show ('/' : Char) ≠ '~' by decide)]
      have h2 : replaceChar '/' ['~', '1'] ('/' :: replaceChar '~' ['~', '0'] xs) =
          '~' :: '1' :: replaceChar '/' ['~', '1'] (replaceChar '~' ['~', '0'] xs) := by
        rw [replaceChar_cons, if_pos rfl]
        rfl
      show replaceChar '/' ['~', '1'] (replaceChar '~' ['~', '0'] ('/' :: xs)) = _
      rw [h1, h2, if_neg hx, if_pos rfl]
      rfl
    · have h1 : replaceChar '~' ['~', '0'] (x :: xs) = x :: replaceChar '~' ['~', '0'] xs := by
        rw [replaceChar_cons, if_neg hx]
      have h2 : replaceChar '/' ['~', '1'] (x :: replaceChar '~' ['~', '0'] xs) =
          x :: replaceChar '/' ['~', '1'] (replaceChar '~' ['~', '0'] xs) := by
        rw [replaceChar_cons, if_neg hs]
      show replaceChar '/' ['~', '1'] (replaceChar '~' ['~', '0'] (x :: xs)) = _
      rw [h1, h2, if_neg hx, if_neg hs]
      rfl

theorem escapeSegment_eq_spec (cs : List Char) : escapeSegment cs = escapeSegmentSpec cs := by
  induction cs with
  | nil => rfl
  | cons x xs ih =>
    rw [escapeSegment_cons, ih]
    simp only [escapeSegmentSpec, List.flatMap_cons]

theorem escapeSegment_no_slash {cs : List Char} {c : Char}
    (h : c ∈ escapeSegment cs) : c ≠ '/' := by
  rw [escapeSegment_eq_spec] at h
  simp only [escapeSegmentSpec, List.mem_flatMap] at h
  obtain ⟨x, _, hc⟩ := h
  intro hslash
  subst hslash
  by_cases hx : x = '~'
  · rw [if_pos hx] at hc
    simp at hc
  · by_cases hs : x = '/'
    · rw [if_neg hx, if_pos hs] at hc
      simp at hc
    · rw [if_neg hx, if_neg hs] at hc
      simp at hc
      exact hs hc.symm

theorem escapeSegment_of_plain {cs : List Char} (h : ∀ c ∈ cs, c ≠ '~' ∧ c ≠ '/') :
    escapeSegment cs = cs := by
  rw [escapeSegment_eq_spec]
  induction cs with
  | nil => rfl
  | cons x xs ih =>
    have hx := h x (by simp)
    simp only [escapeSegmentSpec, List.flatMap_cons, if_neg hx.1, if_neg hx.2]
    have := ih fun c hc => h c (by simp [hc])
    simp only [escapeSegmentSpec] at this
    simp [this]

/-- Digit-only segments (array indices) are unchanged by escaping. -/
theorem escapeSegment_natDigits (n : Nat) : escapeSegment (natDigits n) = natDigits n :=
  escapeSegment_of_plain fun _ hc => natDigits_no_tilde_slash hc

theorem append_empty_natToString (i : Nat) :
    append "" (natToString i) = "/" ++ natToString i := by
  simp only [append, natToString, escapeSegment_natDigits]
  rfl

/-! ## Keys and property lookup

`keys(obj)` returns `["0", …, "n-1"]` for arrays and the own keys, in insertion
order, for objects.  `jsGet j s` is JavaScript bracket lookup `j[s]` with
`undefined` as `none`; for an array, `j[s]` is an element exactly when `s` is
the canonical decimal string of an index below the length (so `"03"` or `"-1"`
find nothing). -/

/-- `keys` from the source. `keys` is only ever applied to non-scalar values
(the scalar guard in `diff` runs first), so the scalar case is irrelevant. -/
def jsKeys : Json → List String
  | .arr xs => (List.range xs.length).map natToString
  | .obj kvs => kvs.map Prod.fst
  | _ => []

/-- Array bracket lookup by property string. -/
def arrGet (xs : List Json) (s : String) : Option Json :=
  ((List.range xs.length).find? fun i => natToString i == s).bind fun i => xs.get? i

/-- Object bracket lookup: the value of the first entry with the given key. -/
def objGet (kvs : List (String × Json)) (s : String) : Option Json :=
  (kvs.find? fun kv => kv.fst == s).map Prod.snd

/-- JavaScript bracket lookup `j[s]` on a non-scalar value. -/
def jsGet : Json → String → Option Json
  | .arr xs, s => arrGet xs s
  | .obj kvs, s => objGet kvs s
  | _, _ => none

theorem indexFind_eq_some {b i : Nat} (h : i < b) :
    ((List.range b).find? fun j => natToString j == natToString i) = some i := by
  have hmem : i ∈ List.range b := List.mem_range.mpr h
  have hsome : (((List.range b).find? fun j => natToString j == natToString i)).isSome := by
    rw [List.find?_isSome]
    exact ⟨i, hmem, by simp⟩
  obtain ⟨j, hj⟩ := Option.isSome_iff_exists.mp hsome
  have hpj := List.find?_some hj
  have : j = i := natToString_inj (by simpa using hpj)
  rw [hj, this]

theorem arrGet_natToString (xs : List Json) (i : Nat) :
    arrGet xs (natToString i) = xs.get? i := by
  unfold arrGet
  by_cases h : i < xs.length
  · rw [indexFind_eq_some h]
    rfl
  · have hnone : ((List.range xs.length).find? fun j => natToString j == natToString i) = none := by
      rw [List.find?_eq_none]
      intro j hj
      simp only [beq_iff_eq]
      intro hc
      exact h (natToString_inj hc ▸ List.mem_range.mp hj)
    rw [hnone, List.get?_eq_none.mpr (by omega)]
    rfl

theorem arrGet_eq_some {xs : List Json} {s : String} {v : Json} (h : arrGet xs s = some v) :
    ∃ i, s = natToString i ∧ i < xs.length ∧ xs.get? i = some v := by
  unfold arrGet at h
  cases hf : (List.range xs.length).find? fun i => natToString i == s with
  | none =>
    rw [hf] at h
    exact Option.noConfusion h
  | some i =>
    rw [hf] at h
    have hp := List.find?_some hf
    have hm := List.mem_of_find?_eq_some hf
    have hg : xs.get? i = some v := h
    have hps : natToString i = s := by simpa using hp
    exact ⟨i, hps.symm, List.mem_range.mp hm, hg⟩

theorem objGet_eq_some {kvs : List (String × Json)} {s : String} {v : Json}
    (h : objGet kvs s = some v) : (s, v) ∈ kvs := by
  unfold objGet at h
  cases hf : kvs.find? fun kv => kv.fst == s with
  | none =>
    rw [hf] at h
    exact Option.noConfusion h
  | some kv =>
    rw [hf] at h
    have hp := List.find?_some hf
    have hm := List.mem_of_find?_eq_some hf
    have hv : some kv.snd = some v := h
    have hfst : kv.fst = s := by simpa using hp
    have hsnd : kv.snd = v := by injection hv
    have : kv = (s, v) := Prod.ext hfst hsnd
    exact this ▸ hm

theorem sizeOf_jsGet : ∀ {j : Json} {s : String} {v : Json},
    jsGet j s = some v → sizeOf v < sizeOf j := by
  intro j s v h
  cases j with
  | arr xs =>
    obtain ⟨i, _, _, hget⟩ := arrGet_eq_some h
    have hmem : v ∈ xs := List.get?_mem hget
    have h1 := List.sizeOf_lt_of_mem hmem
    simp only [Json.arr.sizeOf_spec]
    omega
  | obj kvs =>
    have hmem : (s, v) ∈ kvs := objGet_eq_some h
    have h1 := List.sizeOf_lt_of_mem hmem
    have h2 : sizeOf (s, v) = 1 + sizeOf s + sizeOf v := rfl
    simp only [Json.obj.sizeOf_spec]
    omega
  | null => simp [jsGet] at h
  | bool b => simp [jsGet] at h
  | num n => simp [jsGet] at h
  | str s2 => simp [jsGet] at h

/-! ## The structural diff engine

`diff(prev, next, path)` from the source, split into the two loops of its body:
`diffAdds` is the first loop over `keys(next)` (additions, recursions,
replacements) and `diffRemoves` the second loop over `keys(prev)` (removals). -/

/-- One JSON Patch operation kind. -/
inductive PatchOp where
  | add
  | replace
  | remove

/-- A JSON Patch operation, as produced by the diff engine (RFC 6902 subset).
`value` is `none` for `remove` operations. -/
structure Patch where
  op : PatchOp
  path : String
  value : Option Json := none

/-- The deletions loop of `diff`: for each `prop` of `keys(prev)`, emit a
`remove` when `next[prop]` is undefined. -/
def diffRemoves (next : Json) (props : List String) (path : String) : List Patch :=
  match props with
  | [] => []
  | prop :: rest =>
    (match jsGet next prop with
      | none => [⟨.remove, append path prop, none⟩]
      | some _ => []) ++ diffRemoves next rest path

mutual

/-- `diff` from the source. -/
def diff (prev next : Json) (path : String) : List Patch :=
  if jsStrictEq prev next then []
  else if isScalar prev || isScalar next then [⟨.replace, path, some next⟩]
  else diffAdds prev next (jsKeys next) path ++ diffRemoves next (jsKeys prev) path
  termination_by (sizeOf prev, 1, 0)
  decreasing_by
  · apply Prod.Lex.right
    apply Prod.Lex.left
    exact Nat.zero_lt_one

/-- The additions/changes loop of `diff`, iterating over `keys(next)`. -/
def diffAdds (prev next : Json) (props : List String) (path : String) : List Patch :=
  match props with
  | [] => []
  | prop :: rest =>
    (match h1 : jsGet prev prop, jsGet next prop with
      | none, nv => [⟨.add, append path prop, nv⟩]
      | some pv, some nv =>
        if typeofObject nv && typeofObject pv then diff pv nv (append path prop)
        else if !jsStrictEq pv nv then [⟨.replace, append path prop, some nv⟩]
        else []
      | some _, none => [⟨.replace, append path prop, none⟩]) ++ diffAdds prev next rest path
  termination_by (sizeOf prev, 0, props.length)
  decreasing_by
  · apply Prod.Lex.left
    exact sizeOf_jsGet h1
  · apply Prod.Lex.right
    apply Prod.Lex.right
    simp [List.length_cons]

end

theorem diffAdds_nil (prev next : Json) (path : String) :
    diffAdds prev next [] path = [] := by
  rw [diffAdds]

theorem diffAdds_cons (prev next : Json) (prop : String) (rest : List String) (path : String) :
    diffAdds prev next (prop :: rest) path =
      (match jsGet prev prop, jsGet next prop with
        | none, nv => [⟨.add, append path prop, nv⟩]
        | some pv, some nv =>
          if typeofObject nv && typeofObject pv then diff pv nv (append path prop)
          else if !jsStrictEq pv nv then [⟨.replace, append path prop, some nv⟩]
          else []
        | some _, none => [⟨.replace, append path prop, none⟩]) ++ diffAdds prev next rest path := by
  rw [diffAdds]
  cases hj : jsGet prev prop <;> cases hk : jsGet next prop <;> rfl

theorem natToString_eval_lt {n : Nat} (h : n < 10) :
    natToString n = String.mk [Char.ofNat (48 + n)] := by
  rw [natToString, natDigits_lt h]

theorem natToString_zero : natToString 0 = "0" := by rw [natToString_eval_lt (by omega)]
theorem natToString_one : natToString 1 = "1" := by rw [natToString_eval_lt (by omega)]
theorem natToString_two : natToString 2 = "2" := by rw [natToString_eval_lt (by omega)]
theorem natToString_three : natToString 3 = "3" := by rw [natToString_eval_lt (by omega)]

/-! ## Deep equality, well-formedness, and diff compatibility

`jeq` is deep JSON equality: pointwise on arrays, key-map equality on objects
(order-insensitive, as JSON object equality is).  `wf` states that every object
in a value has pairwise-distinct keys, which is automatic for any value a
JavaScript program can build.  `compatible` delimits the pairs of values on
which the diff/patch round trip can work at all (see `diff_roundtrip_false`
for why some restriction is forced). -/

mutual

/-- Deep (structural) JSON equality; object comparison is key-based and
order-insensitive. -/
def jeq : Json → Json → Bool
  | .null, .null => true
  | .bool a, .bool b => a == b
  | .num a, .num b => a == b
  | .str a, .str b => a == b
  | .arr xs, .arr ys => xs.length == ys.length && jeqList xs ys
  | .obj ps, .obj ns => ps.length == ns.length && jeqObj ps ns
  | _, _ => false
  termination_by a _ => sizeOf a

/-- Pointwise deep equality of array elements. -/
def jeqList : List Json → List Json → Bool
  | [], _ => true
  | _ :: _, [] => true
  | x :: xs, y :: ys => jeq x y && jeqList xs ys
  termination_by xs _ => sizeOf xs

/-- Every entry of the first object matches the other object's value at the
same key. -/
def jeqObj : List (String × Json) → List (String × Json) → Bool
  | [], _ => true
  | (k, v) :: rest, ns =>
    (match objGet ns k with
      | some w => jeq v w
      | none => false) && jeqObj rest ns
  termination_by ps _ => sizeOf ps

end

/-- The keys of an object's entry list are pairwise distinct. -/
def nodupKeys : List (String × Json) → Bool
  | [] => true
  | (k, _) :: rest => !(rest.any fun kv => kv.fst == k) && nodupKeys rest

mutual

/-- Well-formedness: every object reachable in the value has distinct keys.
Any value produced by a JavaScript program satisfies this. -/
def wf : Json → Bool
  | .arr xs => wfList xs
  | .obj kvs => nodupKeys kvs && wfObj kvs
  | _ => true

def wfList : List Json → Bool
  | [] => true
  | x :: xs => wf x && wfList xs

def wfObj : List (String × Json) → Bool
  | [] => true
  | (_, v) :: rest => wf v && wfObj rest

end

mutual

/-- Diff/patch compatibility: wherever `diff` recurses into a pair of
containers, they have the same kind, and arrays shrink by at most one
element.  Pairs with a scalar on either side are always compatible (they are
handled by a single whole-value `replace`). -/
def compatible : Json → Json → Bool
  | .arr xs, .arr ys => decide (xs.length ≤ ys.length + 1) && compatibleList xs ys
  | .obj ps, .obj ns => compatibleObj ps ns
  | .arr _, .obj _ => false
  | .obj _, .arr _ => false
  | _, _ => true
  termination_by a _ => sizeOf a

def compatibleList : List Json → List Json → Bool
  | [], _ => true
  | _ :: _, [] => true
  | x :: xs, y :: ys => compatible x y && compatibleList xs ys
  termination_by xs _ => sizeOf xs

def compatibleObj : List (String × Json) → List (String × Json) → Bool
  | [], _ => true
  | (k, pv) :: rest, ns =>
    (match objGet ns k with
      | some nv => compatible pv nv
      | none => true) && compatibleObj rest ns
  termination_by ps _ => sizeOf ps

end

theorem sizeOf_json_pos (x : Json) : 0 < sizeOf x := by
  cases x <;> simp_arith

theorem objGet_cons (k' : String) (v' : Json) (rest : List (String × Json)) (k : String) :
    objGet ((k', v') :: rest) k = if k' = k then some v' else objGet rest k := by
  by_cases h : k' = k
  · simp [objGet, List.find?_cons, h]
  · simp [objGet, List.find?_cons, h]

theorem objGet_of_nodup_mem : ∀ {kvs : List (String × Json)} {k : String} {v : Json},
    nodupKeys kvs = true → (k, v) ∈ kvs → objGet kvs k = some v := by
  intro kvs
  induction kvs with
  | nil => intro k v _ hm; simp at hm
  | cons kv rest ih =>
    intro k v hnd hm
    obtain ⟨k', v'⟩ := kv
    rw [nodupKeys] at hnd
    simp only [Bool.and_eq_true, Bool.not_eq_true'] at hnd
    rw [objGet_cons]
    rcases List.mem_cons.mp hm with h | h
    · injection h with h1 h2
      subst h1
      subst h2
      rw [if_pos rfl]
    · have hk : k' ≠ k := by
        intro he
        subst he
        have : rest.any (fun x => x.fst == k') = true :=
          List.any_eq_true.mpr ⟨(k', v), h, by simp⟩
        simp [this] at hnd
      rw [if_neg hk]
      exact ih hnd.2 h

theorem wfList_mem {xs : List Json} (h : wfList xs = true) {x : Json} (hx : x ∈ xs) :
    wf x = true := by
  induction xs with
  | nil => simp at hx
  | cons y ys ih =>
    rw [wfList] at h
    simp only [Bool.and_eq_true] at h
    rcases List.mem_cons.mp hx with he | he
    · exact he ▸ h.1
    · exact ih h.2 he

theorem wfObj_mem {kvs : List (String × Json)} (h : wfObj kvs = true) {kv : String × Json}
    (hkv : kv ∈ kvs) : wf kv.snd = true := by
  induction kvs with
  | nil => simp at hkv
  | cons p rest ih =>
    obtain ⟨k, v⟩ := p
    rw [wfObj] at h
    simp only [Bool.and_eq_true] at h
    rcases List.mem_cons.mp hkv with he | he
    · rw [he]
      exact h.1
    · exact ih h.2 he

theorem wf_arr {xs : List Json} (h : wf (.arr xs) = true) {x : Json} (hx : x ∈ xs) :
    wf x = true := wfList_mem (by rwa [wf] at h) hx

theorem wf_obj_values {kvs : List (String × Json)} (h : wf (.obj kvs) = true)
    {kv : String × Json} (hkv : kv ∈ kvs) : wf kv.snd = true := by
  rw [wf] at h
  simp only [Bool.and_eq_true] at h
  exact wfObj_mem h.2 hkv

theorem wf_obj_nodup {kvs : List (String × Json)} (h : wf (.obj kvs) = true) :
    nodupKeys kvs = true := by
  rw [wf] at h
  simp only [Bool.and_eq_true] at h
  exact h.1

theorem jsGet_isSome_of_mem_keys : ∀ {j : Json} {p : String},
    p ∈ jsKeys j → (jsGet j p).isSome = true := by
  intro j p hp
  cases j with
  | arr xs =>
    simp only [jsKeys, List.mem_map] at hp
    obtain ⟨i, hi, rfl⟩ := hp
    have hi' := List.mem_range.mp hi
    rw [jsGet, arrGet_natToString, List.get?_eq_get hi']
    rfl
  | obj kvs =>
    simp only [jsKeys, List.mem_map] at hp
    obtain ⟨kv, hkv, rfl⟩ := hp
    rw [jsGet]
    unfold objGet
    cases hf : kvs.find? fun kv2 => kv2.fst == kv.fst with
    | none =>
      rw [List.find?_eq_none] at hf
      exact absurd (by simp : (kv.fst == kv.fst) = true) (by simpa using hf kv hkv)
    | some kv2 =>
      rfl
  | null => simp [jsKeys] at hp
  | bool b => simp [jsKeys] at hp
  | num n => simp [jsKeys] at hp
  | str s => simp [jsKeys] at hp

theorem diffRemoves_of_isSome (next : Json) (props : List String) (path : String)
    (hmem : ∀ p ∈ props, (jsGet next p).isSome = true) :
    diffRemoves next props path = [] := by
  induction props with
  | nil => rfl
  | cons prop rest ih =>
    rw [diffRemoves]
    have h1 := hmem prop (by simp)
    cases hj : jsGet next prop with
    | none => rw [hj] at h1; simp at h1
    | some v =>
      exact ih fun p hp => hmem p (by simp [hp])

theorem diffAdds_self (x : Json) (props : List String) (path : String)
    (ih : ∀ v : Json, sizeOf v < sizeOf x → ∀ p, diff v v p = [])
    (hmem : ∀ p ∈ props, (jsGet x p).isSome = true) :
    diffAdds x x props path = [] := by
  induction props with
  | nil => exact diffAdds_nil _ _ _
  | cons prop rest ihp =>
    rw [diffAdds_cons]
    have h1 := hmem prop (by simp)
    cases hj : jsGet x prop with
    | none => rw [hj] at h1; simp at h1
    | some pv =>
      have hrest : diffAdds x x rest path = [] := ihp fun p hp => hmem p (by simp [hp])
      show (if typeofObject pv && typeofObject pv then diff pv pv (append path prop)
            else if !jsStrictEq pv pv then [⟨.replace, append path prop, some pv⟩]
            else []) ++ diffAdds x x rest path = []
      by_cases htyp : typeofObject pv = true
      · rw [if_pos (by rw [htyp]; rfl)]
        rw [ih pv (sizeOf_jsGet hj), hrest]
        rfl
      · have htyp2 : typeofObject pv = false := by simpa using htyp
        have hst : jsStrictEq pv pv = true := jsStrictEq_refl_of_not_typeofObject htyp2
        rw [if_neg (by rw [htyp2]; simp), if_neg (by rw [hst]; simp), hrest]
        rfl

theorem diff_self_aux : ∀ (n : Nat) (x : Json), sizeOf x ≤ n → ∀ path, diff x x path = [] := by
  intro n
  induction n with
  | zero =>
    intro x hx
    have := sizeOf_json_pos x
    omega
  | succ n ihn =>
    intro x hx path
    rw [diff]
    by_cases hse : jsStrictEq x x = true
    · rw [if_pos hse]
    · rw [if_neg hse]
      have hsc : isScalar x = false := by
        cases x <;> simp_all [jsStrictEq, isScalar]
      rw [if_neg (by simp [hsc])]
      rw [diffAdds_self x _ _ (fun v hv p => ihn v (by omega) p)
          (fun p hp => jsGet_isSome_of_mem_keys hp),
        diffRemoves_of_isSome x _ _ (fun p hp => jsGet_isSome_of_mem_keys hp)]
      rfl

/-- `diff(x, x)` is empty for every value, matching the `prev === next`
short-circuit in the source (see the module docstring). -/
theorem diff_self (x : Json) (path : String) : diff x x path = [] :=
  diff_self_aux (sizeOf x) x le_rfl path

theorem objGet_isSome_of_mem_keys {kvs : List (String × Json)} {k : String}
    (h : k ∈ kvs.map Prod.fst) : (objGet kvs k).isSome = true := by
  simp only [List.mem_map] at h
  obtain ⟨kv, hkv, rfl⟩ := h
  unfold objGet
  cases hf : kvs.find? fun kv2 => kv2.fst == kv.fst with
  | none =>
    rw [List.find?_eq_none] at hf
    exact absurd (by simp : (kv.fst == kv.fst) = true) (by simpa using hf kv hkv)
  | some kv2 => rfl

theorem objGet_mem_keys {kvs : List (String × Json)} {k : String}
    (h : (objGet kvs k).isSome = true) : k ∈ kvs.map Prod.fst := by
  unfold objGet at h
  cases hf : kvs.find? fun kv2 => kv2.fst == k with
  | none => rw [hf] at h; simp at h
  | some kv =>
    have hp := List.find?_some hf
    have hm := List.mem_of_find?_eq_some hf
    have : kv.fst = k := by simpa using hp
    exact this ▸ List.mem_map_of_mem Prod.fst hm

theorem nodupKeys_iff {kvs : List (String × Json)} :
    nodupKeys kvs = true ↔ (kvs.map Prod.fst).Nodup := by
  induction kvs with
  | nil => simp [nodupKeys]
  | cons kv rest ih =>
    obtain ⟨k, v⟩ := kv
    rw [nodupKeys]
    simp only [Bool.and_eq_true, Bool.not_eq_true', List.map_cons, List.nodup_cons, ih]
    constructor
    · rintro ⟨h1, h2⟩
      refine ⟨fun hmem => ?_, h2⟩
      simp only [List.mem_map] at hmem
      obtain ⟨kv2, hkv2, hfst⟩ := hmem
      have : rest.any (fun x => x.fst == k) = true := List.any_eq_true.mpr ⟨kv2, hkv2, by simp [hfst]⟩
      rw [this] at h1
      exact Bool.noConfusion h1
    · rintro ⟨h1, h2⟩
      refine ⟨?_, h2⟩
      cases hany : rest.any fun x => x.fst == k with
      | false => rfl
      | true =>
        obtain ⟨kv2, hkv2, hfst⟩ := List.any_eq_true.mp hany
        have hk : kv2.fst = k := by simpa using hfst
        exact absurd (hk ▸ List.mem_map_of_mem Prod.fst hkv2) h1

theorem jeqObj_lookup : ∀ {ps ns : List (String × Json)} {k : String} {v : Json},
    jeqObj ps ns = true → (k, v) ∈ ps → ∃ w, objGet ns k = some w ∧ jeq v w = true := by
  intro ps
  induction ps with
  | nil => intro ns k v _ hm; simp at hm
  | cons kv rest ih =>
    intro ns k v hje hm
    obtain ⟨k', v'⟩ := kv
    rw [jeqObj] at hje
    simp only [Bool.and_eq_true] at hje
    rcases List.mem_cons.mp hm with h | h
    · injection h with h1 h2
      subst h1
      subst h2
      cases hg : objGet ns k with
      | none => rw [hg] at hje; simp at hje
      | some w =>
        rw [hg] at hje
        exact ⟨w, rfl, hje.1⟩
    · exact ih hje.2 h

theorem jeqList_lookup : ∀ {xs ys : List Json} {i : Nat} {a b : Json},
    jeqList xs ys = true → xs.get? i = some a → ys.get? i = some b → jeq a b = true := by
  intro xs
  induction xs with
  | nil => intro ys i a b _ ha; simp at ha
  | cons x rest ih =>
    intro ys i a b hje ha hb
    cases ys with
    | nil => simp at hb
    | cons y yrest =>
      rw [jeqList] at hje
      simp only [Bool.and_eq_true] at hje
      cases i with
      | zero =>
        simp only [List.get?] at ha hb
        injection ha with ha
        injection hb with hb
        exact ha ▸ hb ▸ hje.1
      | succ i =>
        simp only [List.get?] at ha hb
        exact ih hje.2 ha hb

theorem jeq_arr_iff {xs ys : List Json} :
    jeq (.arr xs) (.arr ys) = true ↔ xs.length = ys.length ∧ jeqList xs ys = true := by
  rw [jeq]
  simp

theorem jeq_obj_iff {ps ns : List (String × Json)} :
    jeq (.obj ps) (.obj ns) = true ↔ ps.length = ns.length ∧ jeqObj ps ns = true := by
  rw [jeq]
  simp

theorem jeq_scalar_strictEq {a b : Json} (hj : jeq a b = true)
    (ht : (typeofObject a && typeofObject b) = false) : jsStrictEq a b = true := by
  cases a <;> cases b <;> simp_all [jeq, typeofObject, jsStrictEq]

theorem jeqList_of_forall2 : ∀ {xs ys : List Json}, xs.length = ys.length →
    (∀ i a b, xs.get? i = some a → ys.get? i = some b → jeq a b = true) →
    jeqList xs ys = true := by
  intro xs
  induction xs with
  | nil => intro ys _ _; rw [jeqList]
  | cons x rest ih =>
    intro ys hlen hpt
    cases ys with
    | nil => simp at hlen
    | cons y yrest =>
      rw [jeqList]
      simp only [Bool.and_eq_true]
      refine ⟨hpt 0 x y rfl rfl, ih (by simpa using hlen) fun i a b ha hb => ?_⟩
      exact hpt (i + 1) a b (by simpa using ha) (by simpa using hb)

theorem jeqObj_of_lookup : ∀ {ps ns : List (String × Json)},
    (∀ kv ∈ ps, ∃ w, objGet ns kv.fst = some w ∧ jeq kv.snd w = true) →
    jeqObj ps ns = true := by
  intro ps
  induction ps with
  | nil => intro _ _; rw [jeqObj]
  | cons kv rest ih =>
    intro ns hlk
    obtain ⟨k, v⟩ := kv
    rw [jeqObj]
    simp only [Bool.and_eq_true]
    obtain ⟨w, hw, hjw⟩ := hlk (k, v) (by simp)
    rw [hw]
    exact ⟨hjw, ih fun kv2 h2 => hlk kv2 (by simp [h2])⟩

theorem jeq_refl_aux : ∀ (n : Nat) (x : Json), sizeOf x ≤ n → wf x = true → jeq x x = true := by
  intro n
  induction n with
  | zero =>
    intro x hx
    have := sizeOf_json_pos x
    omega
  | succ n ihn =>
    intro x hx hwf
    cases x with
    | null => rw [jeq]
    | bool b => rw [jeq]; simp
    | num m => rw [jeq]; simp
    | str s => rw [jeq]; simp
    | arr xs =>
      rw [jeq_arr_iff]
      refine ⟨rfl, jeqList_of_forall2 rfl fun i a b ha hb => ?_⟩
      have : a = b := by rw [ha] at hb; injection hb
      subst this
      have hmem : a ∈ xs := List.get?_mem ha
      have hsz := List.sizeOf_lt_of_mem hmem
      refine ihn a (by simp only [Json.arr.sizeOf_spec] at hx; omega) (wf_arr hwf hmem)
    | obj kvs =>
      rw [jeq_obj_iff]
      refine ⟨rfl, jeqObj_of_lookup fun kv hkv => ?_⟩
      refine ⟨kv.snd, objGet_of_nodup_mem (wf_obj_nodup hwf) (by cases kv; exact hkv), ?_⟩
      have hsz := List.sizeOf_lt_of_mem hkv
      have hsz2 : sizeOf kv.snd < sizeOf kv := by
        cases kv
        simp_arith
      refine ihn kv.snd (by simp only [Json.obj.sizeOf_spec] at hx; omega) (wf_obj_values hwf hkv)

/-- Deep equality is reflexive on well-formed values. -/
theorem jeq_refl (x : Json) (hwf : wf x = true) : jeq x x = true :=
  jeq_refl_aux (sizeOf x) x le_rfl hwf

theorem diffAdds_empty_of_lookups (x y : Json) (props : List String) (path : String)
    (ih : ∀ a b : Json, sizeOf a < sizeOf x → wf a = true → wf b = true → jeq a b = true →
      ∀ p, diff a b p = [])
    (hlk : ∀ p ∈ props, ∃ a b, jsGet x p = some a ∧ jsGet y p = some b ∧ jeq a b = true ∧
      wf a = true ∧ wf b = true) :
    diffAdds x y props path = [] := by
  induction props with
  | nil => exact diffAdds_nil _ _ _
  | cons prop rest ihp =>
    rw [diffAdds_cons]
    obtain ⟨a, b, hja, hjb, hjeq, hwa, hwb⟩ := hlk prop (by simp)
    rw [hja, hjb]
    have hrest := ihp fun p hp => hlk p (by simp [hp])
    show (if typeofObject b && typeofObject a then diff a b (append path prop)
          else if !jsStrictEq a b then [⟨.replace, append path prop, some b⟩]
          else []) ++ diffAdds x y rest path = []
    by_cases htyp : (typeofObject b && typeofObject a) = true
    · rw [if_pos htyp, ih a b (sizeOf_jsGet hja) hwa hwb hjeq, hrest]
      rfl
    · have htyp2 : (typeofObject a && typeofObject b) = false := by
        rw [Bool.and_comm]
        simpa using htyp
      have hst := jeq_scalar_strictEq hjeq htyp2
      rw [if_neg htyp, if_neg (by rw [hst]; simp), hrest]
      rfl

theorem diff_jeq_empty_aux : ∀ (n : Nat) (x y : Json), sizeOf x ≤ n → wf x = true →
    wf y = true → jeq x y = true → ∀ path, diff x y path = [] := by
  intro n
  induction n with
  | zero =>
    intro x y hx
    have := sizeOf_json_pos x
    omega
  | succ n ihn =>
    intro x y hx hwx hwy hjeq path
    have ihrec : ∀ a b : Json, sizeOf a < sizeOf x → wf a = true → wf b = true →
        jeq a b = true → ∀ p, diff a b p = [] := by
      intro a b hs hwa hwb hj p
      exact ihn a b (by omega) hwa hwb hj p
    cases x with
    | null =>
      cases y <;> try (rw [jeq.eq_def] at hjeq; exact Bool.noConfusion hjeq)
      exact diff_self _ _
    | bool a =>
      cases y <;> try (rw [jeq.eq_def] at hjeq; exact Bool.noConfusion hjeq)
      rename_i b
      rw [jeq.eq_def] at hjeq
      have h2 : (a == b) = true := hjeq
      obtain rfl := eq_of_beq h2
      exact diff_self _ _
    | num a =>
      cases y <;> try (rw [jeq.eq_def] at hjeq; exact Bool.noConfusion hjeq)
      rename_i b
      rw [jeq.eq_def] at hjeq
      have h2 : (a == b) = true := hjeq
      obtain rfl := eq_of_beq h2
      exact diff_self _ _
    | str a =>
      cases y <;> try (rw [jeq.eq_def] at hjeq; exact Bool.noConfusion hjeq)
      rename_i b
      rw [jeq.eq_def] at hjeq
      have h2 : (a == b) = true := hjeq
      obtain rfl := eq_of_beq h2
      exact diff_self _ _
    | arr xs =>
      cases y with
      | arr ys =>
        obtain ⟨hlen, hjl⟩ := jeq_arr_iff.mp hjeq
        rw [diff]
        rw [if_neg (by simp [show jsStrictEq (Json.arr xs) (Json.arr ys) = false from rfl])]
        rw [if_neg (by simp [isScalar])]
        rw [diffAdds_empty_of_lookups _ _ _ _ ihrec ?hlk, diffRemoves_of_isSome _ _ _ ?hrm]
        · rfl
        case hlk =>
          intro p hp
          simp only [jsKeys, List.mem_map] at hp
          obtain ⟨i, hi, rfl⟩ := hp
          have hiy : i < ys.length := List.mem_range.mp hi
          have hix : i < xs.length := by omega
          obtain ⟨a, ha⟩ := Option.isSome_iff_exists.mp
            (by rw [List.get?_eq_get hix]; rfl : (xs.get? i).isSome = true)
          obtain ⟨b, hb⟩ := Option.isSome_iff_exists.mp
            (by rw [List.get?_eq_get hiy]; rfl : (ys.get? i).isSome = true)
          refine ⟨a, b, ?_, ?_, jeqList_lookup hjl ha hb, wf_arr hwx (List.get?_mem ha),
            wf_arr hwy (List.get?_mem hb)⟩
          · rw [jsGet, arrGet_natToString]
            exact ha
          · rw [jsGet, arrGet_natToString]
            exact hb
        case hrm =>
          intro p hp
          simp only [jsKeys, List.mem_map] at hp
          obtain ⟨i, hi, rfl⟩ := hp
          have hix : i < xs.length := List.mem_range.mp hi
          have hiy : i < ys.length := by omega
          rw [jsGet, arrGet_natToString, List.get?_eq_get hiy]
          rfl
      | null => rw [jeq.eq_def] at hjeq; exact Bool.noConfusion hjeq
      | bool b => rw [jeq.eq_def] at hjeq; exact Bool.noConfusion hjeq
      | num m => rw [jeq.eq_def] at hjeq; exact Bool.noConfusion hjeq
      | str s => rw [jeq.eq_def] at hjeq; exact Bool.noConfusion hjeq
      | obj ns => rw [jeq.eq_def] at hjeq; exact Bool.noConfusion hjeq
    | obj ps =>
      cases y with
      | obj ns =>
        obtain ⟨hlen, hjo⟩ := jeq_obj_iff.mp hjeq
        have hndp := wf_obj_nodup hwx
        have hndn := wf_obj_nodup hwy
        have hsub : ∀ k ∈ ps.map Prod.fst, k ∈ ns.map Prod.fst := by
          intro k hk
          obtain ⟨kv, hkv, rfl⟩ := List.mem_map.mp hk
          obtain ⟨w, hw, _⟩ := jeqObj_lookup hjo (show (kv.fst, kv.snd) ∈ ps by
            cases kv; exact hkv)
          exact objGet_mem_keys (by rw [hw]; rfl)
        have hperm : List.Perm (ps.map Prod.fst) (ns.map Prod.fst) :=
          ((nodupKeys_iff.mp hndp).subperm hsub).perm_of_length_le (by
            simp only [List.length_map]
            omega)
        rw [diff]
        rw [if_neg (by simp [show jsStrictEq (Json.obj ps) (Json.obj ns) = false from rfl])]
        rw [if_neg (by simp [isScalar])]
        rw [diffAdds_empty_of_lookups _ _ _ _ ihrec ?hlk, diffRemoves_of_isSome _ _ _ ?hrm]
        · rfl
        case hlk =>
          intro p hp
          have hpns : p ∈ ns.map Prod.fst := by simpa [jsKeys] using hp
          have hpps : p ∈ ps.map Prod.fst := hperm.mem_iff.mpr hpns
          obtain ⟨a, ha⟩ := Option.isSome_iff_exists.mp (objGet_isSome_of_mem_keys hpps)
          have hmem : (p, a) ∈ ps := objGet_eq_some ha
          obtain ⟨w, hw, hjw⟩ := jeqObj_lookup hjo hmem
          refine ⟨a, w, ha, hw, hjw, wf_obj_values hwx hmem, wf_obj_values hwy (objGet_eq_some hw)⟩
        case hrm =>
          intro p hp
          have hpps : p ∈ ps.map Prod.fst := by simpa [jsKeys] using hp
          obtain ⟨a, ha⟩ := Option.isSome_iff_exists.mp (objGet_isSome_of_mem_keys hpps)
          obtain ⟨w, hw, _⟩ := jeqObj_lookup hjo (objGet_eq_some ha)
          rw [jsGet, hw]
          rfl
      | null => rw [jeq.eq_def] at hjeq; exact Bool.noConfusion hjeq
      | bool b => rw [jeq.eq_def] at hjeq; exact Bool.noConfusion hjeq
      | num m => rw [jeq.eq_def] at hjeq; exact Bool.noConfusion hjeq
      | str s => rw [jeq.eq_def] at hjeq; exact Bool.noConfusion hjeq
      | arr ys => rw [jeq.eq_def] at hjeq; exact Bool.noConfusion hjeq

/-- **C2**: for every pair of deep-equal JSON values `x` and `y` (in particular
for `x` and `x` itself, whether as one reference or as two structurally equal
copies — both are the same value in this embedding), `diff(x, y)` returns the
empty patch list. -/
theorem diff_deep_equal_empty (x y : Json) (hx : wf x = true) (hy : wf y = true)
    (h : jeq x y = true) : diff x y "" = [] :=
  diff_jeq_empty_aux (sizeOf x) x y le_rfl hx hy h ""

/-- Witness for `diff_deep_equal_empty`: two deep-equal objects with reordered
keys diff to the empty patch list. -/
theorem diff_deep_equal_empty_witness :
    wf (Json.obj [("a", .arr [.num 1, .bool true]), ("b", .null)]) = true ∧
    wf (Json.obj [("b", .null), ("a", .arr [.num 1, .bool true])]) = true ∧
    jeq (Json.obj [("a", .arr [.num 1, .bool true]), ("b", .null)])
        (Json.obj [("b", .null), ("a", .arr [.num 1, .bool true])]) = true ∧
    diff (Json.obj [("a", .arr [.num 1, .bool true]), ("b", .null)])
        (Json.obj [("b", .null), ("a", .arr [.num 1, .bool true])]) "" = [] := by
  refine ⟨?h1, ?h2, ?h3, ?_⟩
  case h1 => simp [wf, wfList, wfObj, nodupKeys]
  case h2 => simp [wf, wfList, wfObj, nodupKeys]
  case h3 => simp [jeq, jeqList, jeqObj, objGet_cons, objGet]
  exact diff_deep_equal_empty _ _ (by simp [wf, wfList, wfObj, nodupKeys])
    (by simp [wf, wfList, wfObj, nodupKeys])
    (by simp [jeq, jeqList, jeqObj, objGet_cons, objGet])

/-! ## RFC 6902 patch application

The spec's round-trip property applies diff output "under RFC 6902 semantics".
The applier below follows RFC 6901/6902: a pointer is parsed by splitting on
`/` and unescaping `~1` to `/` and then `~0` to `~` within each token
(performed in one character scan, which agrees with the two sequential
replacements on every token); `add` inserts into arrays (index ≤ length, with
`-` meaning append) and inserts-or-overwrites object members; `replace` and
`remove` require the target location to exist, and fail otherwise. -/

/-- RFC 6901 token unescaping: `~1` → `/`, then `~0` → `~`. -/
def unescapeToken : List Char → List Char
  | [] => []
  | [c] => [c]
  | c :: d :: rest =>
    if c = '~' ∧ d = '0' then '~' :: unescapeToken rest
    else if c = '~' ∧ d = '1' then '/' :: unescapeToken rest
    else c :: unescapeToken (d :: rest)

/-- Split a character list on `/` (the separators themselves dropped). -/
def splitSlash : List Char → List (List Char)
  | [] => [[]]
  | c :: rest =>
    if c = '/' then [] :: splitSlash rest
    else
      match splitSlash rest with
      | [] => [[c]]
      | t :: ts => (c :: t) :: ts

/-- Parse an RFC 6901 JSON Pointer into its unescaped reference tokens. -/
def parsePointer (s : String) : Except String (List String) :=
  match s.data with
  | [] => .ok []
  | c :: rest =>
    if c = '/' then .ok ((splitSlash rest).map fun t => String.mk (unescapeToken t))
    else .error "pointer must be empty or start with a slash"

/-- Set a key in an object: overwrite in place when present, append when
absent (JavaScript member-assignment semantics; RFC 6902 `add` on objects). -/
def setKey : List (String × Json) → String → Json → List (String × Json)
  | [], k, v => [(k, v)]
  | (k', v') :: rest, k, v =>
    if k' = k then (k, v) :: rest else (k', v') :: setKey rest k v

/-- Remove the first entry with the given key. -/
def eraseKey : List (String × Json) → String → List (String × Json)
  | [], _ => []
  | (k', v') :: rest, k => if k' = k then rest else (k', v') :: eraseKey rest k

/-- Interpret a reference token as an array index below `bound`: it must be
the canonical decimal form (no leading zeros, no sign), per RFC 6901. -/
def indexInRange (bound : Nat) (s : String) : Option Nat :=
  (List.range bound).find? fun i => natToString i == s

/-- Apply one RFC 6902 operation at a parsed pointer. -/
def applyOpAt (op : PatchOp) (val : Option Json) : List String → Json → Except String Json
  | [], _ =>
    match op, val with
    | .add, some v => .ok v
    | .replace, some v => .ok v
    | .remove, _ => .error "cannot remove the whole document"
    | _, none => .error "missing value"
  | t :: rest, .arr xs =>
    match rest with
    | [] =>
      match op with
      | .add =>
        if t == "-" then
          match val with
          | some v => .ok (.arr (xs ++ [v]))
          | none => .error "missing value"
        else
          match indexInRange (xs.length + 1) t, val with
          | some i, some v => .ok (.arr (xs.take i ++ v :: xs.drop i))
          | _, _ => .error "invalid array index"
      | .replace =>
        match indexInRange xs.length t, val with
        | some i, some v => .ok (.arr (xs.set i v))
        | _, _ => .error "invalid array index"
      | .remove =>
        match indexInRange xs.length t with
        | some i => .ok (.arr (xs.eraseIdx i))
        | none => .error "invalid array index"
    | _ :: _ =>
      match indexInRange xs.length t with
      | some i =>
        match xs.get? i with
        | some v =>
          match applyOpAt op val rest v with
          | .ok v2 => .ok (.arr (xs.set i v2))
          | .error e => .error e
        | none => .error "invalid array index"
      | none => .error "invalid array index"
  | t :: rest, .obj kvs =>
    match rest with
    | [] =>
      match op with
      | .add =>
        match val with
        | some v => .ok (.obj (setKey kvs t v))
        | none => .error "missing value"
      | .replace =>
        match objGet kvs t, val with
        | some _, some v => .ok (.obj (setKey kvs t v))
        | _, _ => .error "path does not exist"
      | .remove =>
        match objGet kvs t with
        | some _ => .ok (.obj (eraseKey kvs t))
        | none => .error "path does not exist"
    | _ :: _ =>
      match objGet kvs t with
      | some v =>
        match applyOpAt op val rest v with
        | .ok v2 => .ok (.obj (setKey kvs t v2))
        | .error e => .error e
      | none => .error "path does not exist"
  | _ :: _, _ => .error "cannot index into a scalar"

/-- Apply one patch operation to a document. -/
def applyPatch (doc : Json) (p : Patch) : Except String Json :=
  match parsePointer p.path with
  | .ok tokens => applyOpAt p.op p.value tokens doc
  | .error e => .error e

/-- Apply a patch list left to right, as RFC 6902 prescribes. -/
def applyPatches : List Patch → Json → Except String Json
  | [], doc => .ok doc
  | p :: ps, doc =>
    match applyPatch doc p with
    | .ok doc2 => applyPatches ps doc2
    | .error e => .error e

theorem applyPatches_append (l1 l2 : List Patch) (doc : Json) :
    applyPatches (l1 ++ l2) doc =
      match applyPatches l1 doc with
      | .ok doc2 => applyPatches l2 doc2
      | .error e => .error e := by
  induction l1 generalizing doc with
  | nil => rfl
  | cons p ps ih =>
    rw [show applyPatches ((p :: ps) ++ l2) doc = (match applyPatch doc p with
        | .ok d => applyPatches (ps ++ l2) d
        | .error e => .error e) from rfl,
      show applyPatches (p :: ps) doc = (match applyPatch doc p with
        | .ok d => applyPatches ps d
        | .error e => .error e) from rfl]
    cases applyPatch doc p with
    | ok doc2 => exact ih doc2
    | error e => rfl

theorem str_ext {a b : String} (h : a.data = b.data) : a = b := by
  cases a
  cases b
  exact congrArg String.mk h

theorem mk_data (s : String) : String.mk s.data = s := by
  cases s
  rfl

theorem unescapeToken_plain_cons {c : Char} (h : c ≠ '~') (rest : List Char) :
    unescapeToken (c :: rest) = c :: unescapeToken rest := by
  cases rest with
  | nil => rfl
  | cons d rest2 =>
    rw [unescapeToken]
    rw [if_neg (by simp [h]), if_neg (by simp [h])]

theorem unescape_escape (cs : List Char) : unescapeToken (escapeSegment cs) = cs := by
  induction cs with
  | nil => rfl
  | cons x xs ih =>
    rw [escapeSegment_cons]
    by_cases hx : x = '~'
    · subst hx
      rw [if_pos rfl]
      show unescapeToken ('~' :: '0' :: escapeSegment xs) = '~' :: xs
      rw [unescapeToken, if_pos ⟨rfl, rfl⟩, ih]
    · by_cases hs : x = '/'
      · subst hs
        rw [if_neg hx, if_pos rfl]
        show unescapeToken ('~' :: '1' :: escapeSegment xs) = '/' :: xs
        rw [unescapeToken, if_neg (by simp), if_pos ⟨rfl, rfl⟩, ih]
      · rw [if_neg hx, if_neg hs]
        show unescapeToken (x :: escapeSegment xs) = x :: xs
        rw [unescapeToken_plain_cons hx, ih]

theorem splitSlash_ne_nil (cs : List Char) : splitSlash cs ≠ [] := by
  cases cs with
  | nil => simp [splitSlash]
  | cons c rest =>
    rw [splitSlash]
    by_cases hc : c = '/'
    · simp [hc]
    · rw [if_neg hc]
      cases hsp : splitSlash rest with
      | nil => simp
      | cons t ts => simp

theorem splitSlash_append_sep : ∀ (u v : List Char),
    splitSlash (u ++ '/' :: v) = splitSlash u ++ splitSlash v := by
  intro u
  induction u with
  | nil =>
    intro v
    show splitSlash ('/' :: v) = [[]] ++ splitSlash v
    rw [splitSlash, if_pos rfl]
    rfl
  | cons x xs ih =>
    intro v
    show splitSlash (x :: (xs ++ '/' :: v)) = _
    rw [splitSlash, ih v]
    by_cases hx : x = '/'
    · rw [if_pos hx]
      show ([] : List Char) :: (splitSlash xs ++ splitSlash v) = splitSlash (x :: xs) ++ splitSlash v
      rw [splitSlash, if_pos hx]
      rfl
    · rw [if_neg hx]
      cases hsp : splitSlash xs with
      | nil => exact absurd hsp (splitSlash_ne_nil xs)
      | cons t ts =>
        show (x :: t) :: (ts ++ splitSlash v) = splitSlash (x :: xs) ++ splitSlash v
        rw [splitSlash, if_neg hx, hsp]
        rfl

theorem splitSlash_no_slash {a : List Char} (h : ∀ c ∈ a, c ≠ '/') : splitSlash a = [a] := by
  induction a with
  | nil => rfl
  | cons x xs ih =>
    rw [splitSlash, if_neg (h x (by simp)), ih fun c hc => h c (by simp [hc])]

theorem parsePointer_data_nil {s : String} (h : s.data = []) : parsePointer s = .ok [] := by
  rw [parsePointer, h]

theorem parsePointer_data_cons {s : String} {c : Char} {rest : List Char}
    (h : s.data = c :: rest) :
    parsePointer s =
      if c = '/' then .ok ((splitSlash rest).map fun t => String.mk (unescapeToken t))
      else .error "pointer must be empty or start with a slash" := by
  rw [parsePointer, h]

theorem unescape_escape_str (tok : String) :
    String.mk (unescapeToken (escapeSegment tok.data)) = tok := by
  rw [unescape_escape]

theorem data_append_empty_segment (tok : String) :
    (append "" tok).data = '/' :: escapeSegment tok.data := by
  show (("" ++ "/" : String) ++ String.mk (escapeSegment tok.data)).data = _
  rw [String.data_append]
  rfl

/-- Parsing a pointer extended in front by one diff path segment prepends the
(unescaped) segment to the token list. -/
theorem parsePointer_prefix {s : String} {ts : List String} (h : parsePointer s = .ok ts)
    (tok : String) : parsePointer (append "" tok ++ s) = .ok (tok :: ts) := by
  have hdata : (append "" tok ++ s).data = '/' :: (escapeSegment tok.data ++ s.data) := by
    rw [String.data_append, data_append_empty_segment]
    rfl
  rw [parsePointer_data_cons hdata, if_pos rfl]
  cases hs : s.data with
  | nil =>
    rw [parsePointer_data_nil hs] at h
    injection h with h2
    subst h2
    rw [List.append_nil,
      splitSlash_no_slash fun c hc => escapeSegment_no_slash hc]
    rw [List.map_singleton, unescape_escape_str]
  | cons c rest =>
    rw [parsePointer_data_cons hs] at h
    by_cases hc : c = '/'
    · subst hc
      rw [if_pos rfl] at h
      injection h with h2
      rw [splitSlash_append_sep,
        splitSlash_no_slash fun c hc => escapeSegment_no_slash hc]
      rw [List.singleton_append, List.map_cons, unescape_escape_str, h2]
    · rw [if_neg hc] at h
      exact Except.noConfusion h

theorem string_append_empty (s : String) : s ++ "" = s :=
  str_ext (by rw [String.data_append, show ("" : String).data = [] from rfl, List.append_nil])

theorem parsePointer_segment (tok : String) :
    parsePointer (append "" tok) = .ok [tok] := by
  have h2 := parsePointer_prefix (show parsePointer "" = .ok [] from rfl) tok
  rwa [string_append_empty] at h2

/-- **C1 counterexample**: the empty object and the empty array are both
non-scalar and share no keys, so `diff({}, [])` is the empty patch list;
applying it to `{}` returns `{}` unchanged, which is not deep-equal to `[]`.
The round-trip property therefore fails as universally stated. -/
theorem diff_roundtrip_counterexample :
    diff (Json.obj []) (Json.arr []) "" = [] ∧
    applyPatches (diff (Json.obj []) (Json.arr []) "") (Json.obj []) = .ok (Json.obj []) ∧
    jeq (Json.obj []) (Json.arr []) = false := by
  have h : diff (Json.obj []) (Json.arr []) "" = [] := by
    simp [diff, diffAdds_nil, diffRemoves, jsKeys, jsStrictEq, isScalar]
  refine ⟨h, by rw [h]; rfl, by rw [jeq.eq_def]⟩

/-! ## Relative paths

Every patch `diff` emits at base path `path` is the corresponding base-`""`
patch with `path` prefixed onto its pointer.  This lets the round-trip proof
work one container level at a time. -/

/-- Prefix a patch's pointer with a path. -/
def prependPath (pre : String) (pa : Patch) : Patch := { pa with path := pre ++ pa.path }

theorem string_empty_append (s : String) : "" ++ s = s :=
  str_ext (by rw [String.data_append, show ("" : String).data = [] from rfl]; rfl)

theorem string_append_assoc (a b c : String) : a ++ b ++ c = a ++ (b ++ c) :=
  str_ext (by
    rw [String.data_append, String.data_append, String.data_append, String.data_append,
      List.append_assoc])

theorem append_split (path prop : String) : append path prop = path ++ append "" prop := by
  show path ++ "/" ++ String.mk (escapeSegment prop.data) =
    path ++ ("" ++ "/" ++ String.mk (escapeSegment prop.data))
  rw [string_empty_append "/", string_append_assoc]

theorem prependPath_comp (p q : String) (pa : Patch) :
    prependPath p (prependPath q pa) = prependPath (p ++ q) pa := by
  simp [prependPath, string_append_assoc]

theorem prependPath_empty (pa : Patch) : prependPath "" pa = pa := by
  simp [prependPath, string_empty_append]

theorem diffRemoves_path (next : Json) (props : List String) (path : String) :
    diffRemoves next props path = (diffRemoves next props "").map (prependPath path) := by
  induction props with
  | nil => rfl
  | cons prop rest ih =>
    rw [diffRemoves, diffRemoves, List.map_append]
    cases jsGet next prop with
    | none =>
      rw [ih]
      show ⟨.remove, append path prop, none⟩ :: _ = prependPath path ⟨.remove, append "" prop, none⟩ :: _
      rw [show prependPath path ⟨.remove, append "" prop, none⟩ =
        ⟨.remove, path ++ append "" prop, none⟩ from rfl, ← append_split]
      rfl
    | some _ =>
      rw [ih]
      rfl

theorem diffAdds_path (prev next : Json) (props : List String) (path : String)
    (ih : ∀ pv nv : Json, sizeOf pv < sizeOf prev →
      ∀ p, diff pv nv p = (diff pv nv "").map (prependPath p)) :
    diffAdds prev next props path = (diffAdds prev next props "").map (prependPath path) := by
  induction props with
  | nil => rw [diffAdds_nil, diffAdds_nil]; rfl
  | cons prop rest ihp =>
    rw [diffAdds_cons, diffAdds_cons, List.map_append, ihp]
    congr 1
    cases hj : jsGet prev prop with
    | none =>
      show [(⟨.add, append path prop, jsGet next prop⟩ : Patch)] =
        List.map (prependPath path) [⟨.add, append "" prop, jsGet next prop⟩]
      rw [List.map_singleton]
      show _ = [(⟨.add, path ++ append "" prop, jsGet next prop⟩ : Patch)]
      rw [← append_split]
    | some pv =>
      cases hk : jsGet next prop with
      | none =>
        show [(⟨.replace, append path prop, none⟩ : Patch)] =
          List.map (prependPath path) [⟨.replace, append "" prop, none⟩]
        rw [List.map_singleton]
        show _ = [(⟨.replace, path ++ append "" prop, none⟩ : Patch)]
        rw [← append_split]
      | some nv =>
        show (if typeofObject nv && typeofObject pv then diff pv nv (append path prop)
              else if !jsStrictEq pv nv then [⟨.replace, append path prop, some nv⟩]
              else []) =
          List.map (prependPath path)
            (if typeofObject nv && typeofObject pv then diff pv nv (append "" prop)
             else if !jsStrictEq pv nv then [⟨.replace, append "" prop, some nv⟩]
             else [])
        by_cases ht : (typeofObject nv && typeofObject pv) = true
        · rw [if_pos ht, if_pos ht, ih pv nv (sizeOf_jsGet hj) (append path prop),
            ih pv nv (sizeOf_jsGet hj) (append "" prop), List.map_map]
          congr 1
          funext pa
          show prependPath (append path prop) pa = prependPath path (prependPath (append "" prop) pa)
          rw [prependPath_comp, ← append_split]
        · rw [if_neg ht, if_neg ht]
          by_cases hs : (!jsStrictEq pv nv) = true
          · rw [if_pos hs, if_pos hs, List.map_singleton]
            show _ = [(⟨.replace, path ++ append "" prop, some nv⟩ : Patch)]
            rw [← append_split]
          · rw [if_neg hs, if_neg hs]
            rfl

theorem diff_path_aux : ∀ (n : Nat) (prev next : Json), sizeOf prev ≤ n →
    ∀ path, diff prev next path = (diff prev next "").map (prependPath path) := by
  intro n
  induction n with
  | zero =>
    intro prev next hp
    have := sizeOf_json_pos prev
    omega
  | succ n ihn =>
    intro prev next hp path
    rw [diff, diff]
    by_cases hse : jsStrictEq prev next = true
    · rw [if_pos hse, if_pos hse]
      rfl
    · rw [if_neg hse, if_neg hse]
      by_cases hsc : (isScalar prev || isScalar next) = true
      · rw [if_pos hsc, if_pos hsc, List.map_singleton]
        show _ = [(⟨.replace, path ++ "", some next⟩ : Patch)]
        rw [string_append_empty]
      · rw [if_neg hsc, if_neg hsc, List.map_append]
        rw [diffAdds_path prev next _ path (fun pv nv hs p => ihn pv nv (by omega) p),
          diffRemoves_path]

theorem diff_path (prev next : Json) (path : String) :
    diff prev next path = (diff prev next "").map (prependPath path) :=
  diff_path_aux (sizeOf prev) prev next le_rfl path

/-- Shape invariant of diff output at base path `""`: a patch at the root
pointer is a whole-document `replace` carrying a value; any other patch's
pointer starts with `/`. -/
def GoodPatch (pa : Patch) : Prop :=
  (pa.path = "" → pa.op = .replace ∧ pa.value.isSome = true) ∧
  (pa.path = "" ∨ ∃ cs, pa.path.data = '/' :: cs)

theorem goodPatch_of_segment_path {op : PatchOp} {prop : String} {val : Option Json} :
    GoodPatch ⟨op, append "" prop, val⟩ := by
  constructor
  · intro h
    have := congrArg String.data h
    rw [data_append_empty_segment] at this
    exact List.noConfusion this
  · right
    exact ⟨escapeSegment prop.data, data_append_empty_segment prop⟩

theorem goodPatch_of_prefixed {pa : Patch} {prop : String} :
    GoodPatch (prependPath (append "" prop) pa) := by
  constructor
  · intro h
    have := congrArg String.data h
    rw [show (prependPath (append "" prop) pa).path = append "" prop ++ pa.path from rfl,
      String.data_append, data_append_empty_segment] at this
    exact List.noConfusion this
  · right
    refine ⟨escapeSegment prop.data ++ pa.path.data, ?_⟩
    rw [show (prependPath (append "" prop) pa).path = append "" prop ++ pa.path from rfl,
      String.data_append, data_append_empty_segment]
    rfl

theorem diffAdds_goodPatch {prev next : Json} {props : List String} {pa : Patch}
    (h : pa ∈ diffAdds prev next props "") : GoodPatch pa := by
  induction props with
  | nil => rw [diffAdds_nil] at h; simp at h
  | cons prop rest ih =>
    rw [diffAdds_cons] at h
    rcases List.mem_append.mp h with h2 | h2
    · cases hj : jsGet prev prop with
      | none =>
        rw [hj] at h2
        simp only [List.mem_singleton] at h2
        subst h2
        exact goodPatch_of_segment_path
      | some pv =>
        rw [hj] at h2
        cases hk : jsGet next prop with
        | none =>
          rw [hk] at h2
          simp only [List.mem_singleton] at h2
          subst h2
          exact goodPatch_of_segment_path
        | some nv =>
          rw [hk] at h2
          replace h2 : pa ∈ (if typeofObject nv && typeofObject pv
              then diff pv nv (append "" prop)
              else if !jsStrictEq pv nv then [⟨.replace, append "" prop, some nv⟩]
              else []) := h2
          by_cases ht : (typeofObject nv && typeofObject pv) = true
          · rw [if_pos ht] at h2
            rw [diff_path pv nv (append "" prop)] at h2
            obtain ⟨pa0, _, rfl⟩ := List.mem_map.mp h2
            exact goodPatch_of_prefixed
          · rw [if_neg ht] at h2
            by_cases hs : (!jsStrictEq pv nv) = true
            · rw [if_pos hs] at h2
              simp only [List.mem_singleton] at h2
              subst h2
              exact goodPatch_of_segment_path
            · rw [if_neg hs] at h2
              simp at h2
    · exact ih h2

theorem diffRemoves_goodPatch {next : Json} {props : List String} {pa : Patch}
    (h : pa ∈ diffRemoves next props "") : GoodPatch pa := by
  induction props with
  | nil => simp [diffRemoves] at h
  | cons prop rest ih =>
    rw [diffRemoves] at h
    rcases List.mem_append.mp h with h2 | h2
    · cases hj : jsGet next prop with
      | none =>
        rw [hj] at h2
        simp only [List.mem_singleton] at h2
        subst h2
        exact goodPatch_of_segment_path
      | some _ =>
        rw [hj] at h2
        simp at h2
    · exact ih h2

theorem diff_goodPatch {prev next : Json} {pa : Patch} (h : pa ∈ diff prev next "") :
    GoodPatch pa := by
  rw [diff] at h
  by_cases hse : jsStrictEq prev next = true
  · rw [if_pos hse] at h
    simp at h
  · rw [if_neg hse] at h
    by_cases hsc : (isScalar prev || isScalar next) = true
    · rw [if_pos hsc] at h
      simp only [List.mem_singleton] at h
      subst h
      exact ⟨fun _ => ⟨rfl, rfl⟩, Or.inl rfl⟩
    · rw [if_neg hsc] at h
      rcases List.mem_append.mp h with h2 | h2
      · exact diffAdds_goodPatch h2
      · exact diffRemoves_goodPatch h2

theorem list_get?_set_self : ∀ (zs : List Json) (i : Nat) (v : Json), i < zs.length →
    (zs.set i v).get? i = some v := by
  intro zs
  induction zs with
  | nil => intro i v h; simp at h
  | cons z rest ih =>
    intro i v h
    cases i with
    | zero => rfl
    | succ i => exact ih i v (by simpa using h)

theorem list_set_get_self : ∀ (zs : List Json) (i : Nat) (v : Json),
    zs.get? i = some v → zs.set i v = zs := by
  intro zs
  induction zs with
  | nil => intro i v h; simp at h
  | cons z rest ih =>
    intro i v h
    cases i with
    | zero =>
      injection h with h
      rw [List.set]
      rw [h]
    | succ i =>
      rw [List.set]
      rw [ih i v h]

theorem objGet_setKey_self : ∀ (kvs : List (String × Json)) (k : String) (v : Json),
    objGet (setKey kvs k v) k = some v := by
  intro kvs
  induction kvs with
  | nil => intro k v; simp [setKey, objGet_cons]
  | cons kv rest ih =>
    intro k v
    obtain ⟨k', v'⟩ := kv
    rw [setKey]
    by_cases h : k' = k
    · rw [if_pos h, objGet_cons, if_pos rfl]
    · rw [if_neg h, objGet_cons, if_neg h, ih]

theorem setKey_setKey : ∀ (kvs : List (String × Json)) (k : String) (a b : Json),
    setKey (setKey kvs k a) k b = setKey kvs k b := by
  intro kvs
  induction kvs with
  | nil => intro k a b; simp [setKey]
  | cons kv rest ih =>
    intro k a b
    obtain ⟨k', v'⟩ := kv
    rw [setKey]
    by_cases h : k' = k
    · rw [if_pos h, setKey, if_pos rfl, setKey, if_pos h]
    · rw [if_neg h, setKey, if_neg h, setKey, if_neg h, ih]

theorem setKey_self : ∀ (kvs : List (String × Json)) (k : String) (v : Json),
    objGet kvs k = some v → setKey kvs k v = kvs := by
  intro kvs
  induction kvs with
  | nil => intro k v h; simp [objGet] at h
  | cons kv rest ih =>
    intro k v h
    obtain ⟨k', v'⟩ := kv
    rw [objGet_cons] at h
    rw [setKey]
    by_cases hk : k' = k
    · rw [if_pos hk]
      rw [if_pos hk] at h
      injection h with h
      rw [hk, h]
    · rw [if_neg hk]
      rw [if_neg hk] at h
      rw [ih k v h]

theorem indexInRange_natToString {b i : Nat} (h : i < b) :
    indexInRange b (natToString i) = some i := indexFind_eq_some h

theorem parsePointer_empty : parsePointer "" = .ok [] :=
  parsePointer_data_nil rfl

theorem prependPath_patch (pre : String) (op : PatchOp) (p : String) (val : Option Json) :
    prependPath pre ⟨op, p, val⟩ = ⟨op, pre ++ p, val⟩ := rfl

theorem patch_eta {pa : Patch} {op : PatchOp} {p : String} {val : Option Json}
    (h1 : pa.op = op) (h2 : pa.path = p) (h3 : pa.value = val) : pa = ⟨op, p, val⟩ := by
  cases pa
  simp_all

/-- Applying a root-`replace` patch prefixed by an array index token to an
array replaces that element. -/
theorem applyPatch_prepend_arr {pa : Patch} (good : GoodPatch pa) {zs : List Json} {i : Nat}
    {v : Json} (hv : zs.get? i = some v) :
    applyPatch (.arr zs) (prependPath (append "" (natToString i)) pa) =
      match applyPatch v pa with
      | .ok v2 => .ok (.arr (zs.set i v2))
      | .error e => .error e := by
  have hi : i < zs.length := by
    by_contra hc
    rw [List.get?_eq_none.mpr (by omega)] at hv
    exact Option.noConfusion hv
  rcases good.2 with hemp | ⟨cs, hcs⟩
  · obtain ⟨hop, hval⟩ := good.1 hemp
    obtain ⟨v0, hv0⟩ := Option.isSome_iff_exists.mp hval
    obtain rfl := patch_eta hop hemp hv0
    rw [show prependPath (append "" (natToString i)) (⟨.replace, "", some v0⟩ : Patch) =
      ⟨.replace, append "" (natToString i), some v0⟩ from by
        rw [prependPath_patch, string_append_empty]]
    rw [applyPatch, applyPatch, parsePointer_segment, parsePointer_empty]
    show (match indexInRange zs.length (natToString i), some v0 with
          | some j, some w => Except.ok (Json.arr (zs.set j w))
          | _, _ => Except.error "invalid array index") = _
    rw [indexInRange_natToString hi]
    rfl
  · have hparse : parsePointer pa.path =
        .ok ((splitSlash cs).map fun t => String.mk (unescapeToken t)) := by
      rw [parsePointer_data_cons hcs, if_pos rfl]
    cases hsp : splitSlash cs with
    | nil => exact absurd hsp (splitSlash_ne_nil cs)
    | cons t0 ts' =>
      rw [hsp] at hparse
      rw [applyPatch, applyPatch,
        show (prependPath (append "" (natToString i)) pa).path =
          append "" (natToString i) ++ pa.path from rfl,
        parsePointer_prefix hparse, hparse]
      simp only [List.map_cons]
      show (match indexInRange zs.length (natToString i) with
            | some j =>
              match zs.get? j with
              | some w =>
                match applyOpAt pa.op pa.value
                    (String.mk (unescapeToken t0) :: ts'.map fun t => String.mk (unescapeToken t)) w with
                | .ok v2 => Except.ok (Json.arr (zs.set j v2))
                | .error e => Except.error e
              | none => Except.error "invalid array index"
            | none => Except.error "invalid array index") = _
      rw [indexInRange_natToString hi]
      show (match zs.get? i with
            | some w =>
              match applyOpAt pa.op pa.value
                  (String.mk (unescapeToken t0) :: ts'.map fun t => String.mk (unescapeToken t)) w with
              | .ok v2 => Except.ok (Json.arr (zs.set i v2))
              | .error e => Except.error e
            | none => Except.error "invalid array index") = _
      rw [hv]

/-- Applying a root-`replace` patch prefixed by an object key token to an
object replaces that key's value. -/
theorem applyPatch_prepend_obj {pa : Patch} (good : GoodPatch pa)
    {kvs : List (String × Json)} {k : String} {v : Json} (hv : objGet kvs k = some v) :
    applyPatch (.obj kvs) (prependPath (append "" k) pa) =
      match applyPatch v pa with
      | .ok v2 => .ok (.obj (setKey kvs k v2))
      | .error e => .error e := by
  rcases good.2 with hemp | ⟨cs, hcs⟩
  · obtain ⟨hop, hval⟩ := good.1 hemp
    obtain ⟨v0, hv0⟩ := Option.isSome_iff_exists.mp hval
    obtain rfl := patch_eta hop hemp hv0
    rw [show prependPath (append "" k) (⟨.replace, "", some v0⟩ : Patch) =
      ⟨.replace, append "" k, some v0⟩ from by
        rw [prependPath_patch, string_append_empty]]
    rw [applyPatch, applyPatch, parsePointer_segment, parsePointer_empty]
    show (match objGet kvs k, some v0 with
          | some _, some w => Except.ok (Json.obj (setKey kvs k w))
          | _, _ => Except.error "path does not exist") = _
    rw [hv]
    rfl
  · have hparse : parsePointer pa.path =
        .ok ((splitSlash cs).map fun t => String.mk (unescapeToken t)) := by
      rw [parsePointer_data_cons hcs, if_pos rfl]
    cases hsp : splitSlash cs with
    | nil => exact absurd hsp (splitSlash_ne_nil cs)
    | cons t0 ts' =>
      rw [hsp] at hparse
      rw [applyPatch, applyPatch,
        show (prependPath (append "" k) pa).path = append "" k ++ pa.path from rfl,
        parsePointer_prefix hparse, hparse]
      simp only [List.map_cons]
      show (match objGet kvs k with
            | some w =>
              match applyOpAt pa.op pa.value
                  (String.mk (unescapeToken t0) :: ts'.map fun t => String.mk (unescapeToken t)) w with
              | .ok v2 => Except.ok (Json.obj (setKey kvs k v2))
              | .error e => Except.error e
            | none => Except.error "path does not exist") = _
      rw [hv]

/-- Pushing a whole patch list through one array element. -/
theorem applyPatches_prepend_arr {L : List Patch} (good : ∀ pa ∈ L, GoodPatch pa) :
    ∀ {zs : List Json} {i : Nat} {v v2 : Json}, zs.get? i = some v →
    applyPatches L v = .ok v2 →
    applyPatches (L.map (prependPath (append "" (natToString i)))) (.arr zs) =
      .ok (.arr (zs.set i v2)) := by
  induction L with
  | nil =>
    intro zs i v v2 hv happ
    injection happ with happ
    subst happ
    rw [List.map_nil]
    show Except.ok (Json.arr zs) = _
    rw [list_set_get_self zs i v hv]
  | cons p ps ih =>
    intro zs i v v2 hv happ
    have hi : i < zs.length := by
      by_contra hc
      rw [List.get?_eq_none.mpr (by omega)] at hv
      exact Option.noConfusion hv
    rw [List.map_cons, applyPatches,
      applyPatch_prepend_arr (good p (by simp)) hv]
    rw [applyPatches] at happ
    cases hap : applyPatch v p with
    | error e =>
      rw [hap] at happ
      exact Except.noConfusion happ
    | ok w =>
      rw [hap] at happ
      have hw : (zs.set i w).get? i = some w := list_get?_set_self zs i w hi
      have := ih (fun pa hpa => good pa (by simp [hpa])) hw happ
      rw [List.set_set] at this
      exact this

/-- Pushing a whole patch list through one object member. -/
theorem applyPatches_prepend_obj {L : List Patch} (good : ∀ pa ∈ L, GoodPatch pa) :
    ∀ {kvs : List (String × Json)} {k : String} {v v2 : Json}, objGet kvs k = some v →
    applyPatches L v = .ok v2 →
    applyPatches (L.map (prependPath (append "" k))) (.obj kvs) =
      .ok (.obj (setKey kvs k v2)) := by
  induction L with
  | nil =>
    intro kvs k v v2 hv happ
    injection happ with happ
    subst happ
    rw [List.map_nil]
    show Except.ok (Json.obj kvs) = _
    rw [setKey_self kvs k v hv]
  | cons p ps ih =>
    intro kvs k v v2 hv happ
    rw [List.map_cons, applyPatches,
      applyPatch_prepend_obj (good p (by simp)) hv]
    rw [applyPatches] at happ
    cases hap : applyPatch v p with
    | error e =>
      rw [hap] at happ
      exact Except.noConfusion happ
    | ok w =>
      rw [hap] at happ
      have hw : objGet (setKey kvs k w) k = some w := objGet_setKey_self kvs k w
      have := ih (fun pa hpa => good pa (by simp [hpa])) hw happ
      rw [setKey_setKey] at this
      exact this

theorem diffAdds_append (prev next : Json) (p1 p2 : List String) (path : String) :
    diffAdds prev next (p1 ++ p2) path =
      diffAdds prev next p1 path ++ diffAdds prev next p2 path := by
  induction p1 with
  | nil => rw [diffAdds_nil]; rfl
  | cons p ps ih =>
    rw [List.cons_append, diffAdds_cons, diffAdds_cons, ih, List.append_assoc]

theorem diffRemoves_append (next : Json) (p1 p2 : List String) (path : String) :
    diffRemoves next (p1 ++ p2) path =
      diffRemoves next p1 path ++ diffRemoves next p2 path := by
  induction p1 with
  | nil => rfl
  | cons p ps ih =>
    rw [List.cons_append, diffRemoves, diffRemoves, ih, List.append_assoc]

theorem list_get?_set_ne (zs : List Json) (i j : Nat) (v : Json) (h : i ≠ j) :
    (zs.set i v).get? j = zs.get? j := by
  induction zs generalizing i j with
  | nil => simp
  | cons z rest ih =>
    cases i with
    | zero =>
      cases j with
      | zero => exact absurd rfl h
      | succ j => rfl
    | succ i =>
      cases j with
      | zero => rfl
      | succ j => exact ih i j (by omega)

theorem natToString_ne_dash (i : Nat) : (natToString i == "-") = false := by
  apply beq_eq_false_iff_ne.mpr
  intro h
  have hd := congrArg String.data h
  simp only [natToString] at hd
  have : '-' ∈ natDigits i := by
    rw [hd]
    simp
  have := mem_natDigits_range this
  rw [show ('-' : Char).toNat = 45 from rfl] at this
  omega

theorem applyPatch_replace_arr {zs : List Json} {i : Nat} {v0 : Json}
    (hv : zs.get? i = some v0) (v : Json) :
    applyPatch (.arr zs) ⟨.replace, append "" (natToString i), some v⟩ =
      .ok (.arr (zs.set i v)) := by
  have hgood : GoodPatch ⟨.replace, "", some v⟩ := ⟨fun _ => ⟨rfl, rfl⟩, Or.inl rfl⟩
  have h2 := applyPatch_prepend_arr hgood hv
  rw [show prependPath (append "" (natToString i)) (⟨.replace, "", some v⟩ : Patch) =
    ⟨.replace, append "" (natToString i), some v⟩ from by
      rw [prependPath_patch, string_append_empty]] at h2
  exact h2.trans (by rfl)

theorem applyOpAt_add_arr_single (t : String) (val : Option Json) (xs : List Json) :
    applyOpAt .add val [t] (.arr xs) =
      if t == "-" then
        match val with
        | some v => Except.ok (Json.arr (xs ++ [v]))
        | none => Except.error "missing value"
      else
        match indexInRange (xs.length + 1) t, val with
        | some i, some v => Except.ok (Json.arr (xs.take i ++ v :: xs.drop i))
        | _, _ => Except.error "invalid array index" := rfl

theorem applyPatch_add_arr_end {zs : List Json} {i : Nat} (hlen : zs.length = i) (v : Json) :
    applyPatch (.arr zs) ⟨.add, append "" (natToString i), some v⟩ =
      .ok (.arr (zs ++ [v])) := by
  rw [applyPatch, parsePointer_segment]
  show applyOpAt .add (some v) [natToString i] (.arr zs) = _
  rw [applyOpAt_add_arr_single, if_neg (by rw [natToString_ne_dash]; simp),
    indexInRange_natToString (by omega)]
  show Except.ok (Json.arr (zs.take i ++ v :: zs.drop i)) = _
  rw [← hlen, List.take_length, List.drop_length]

theorem applyPatch_remove_arr_last {zs : List Json} {m : Nat} (h : zs.length = m + 1) :
    applyPatch (.arr zs) ⟨.remove, append "" (natToString m), none⟩ =
      .ok (.arr (zs.take m)) := by
  rw [applyPatch, parsePointer_segment]
  show (match indexInRange zs.length (natToString m) with
        | some j => Except.ok (Json.arr (zs.eraseIdx j))
        | none => Except.error "invalid array index") = _
  rw [indexInRange_natToString (by omega)]
  show Except.ok (Json.arr (zs.eraseIdx m)) = _
  rw [List.eraseIdx_eq_take_drop_succ]
  rw [List.drop_eq_nil_of_le (by omega), List.append_nil]

/-- Processing the shared-index blocks of an array diff: each block converts
element `i` of the working array to (a deep equal of) `next`'s element `i`. -/
theorem arr_shared_phase (xs ys : List Json)
    (ih : ∀ a b : Json, a ∈ xs → wf a = true → wf b = true → compatible a b = true →
      ∃ r, applyPatches (diff a b "") a = .ok r ∧ jeq r b = true)
    (hwx : ∀ a ∈ xs, wf a = true) (hwy : ∀ b ∈ ys, wf b = true)
    (hcomp : ∀ i a b, xs.get? i = some a → ys.get? i = some b → compatible a b = true) :
    ∀ (cnt i0 : Nat) (zs : List Json),
      i0 + cnt ≤ xs.length → i0 + cnt ≤ ys.length →
      zs.length = xs.length →
      (∀ j, i0 ≤ j → zs.get? j = xs.get? j) →
      ∃ zs2, applyPatches (diffAdds (.arr xs) (.arr ys)
          ((List.range' i0 cnt).map natToString) "") (.arr zs) = .ok (.arr zs2) ∧
        zs2.length = zs.length ∧
        (∀ j, j < i0 → zs2.get? j = zs.get? j) ∧
        (∀ j, i0 ≤ j → j < i0 + cnt →
          ∃ w b, zs2.get? j = some w ∧ ys.get? j = some b ∧ jeq w b = true) ∧
        (∀ j, i0 + cnt ≤ j → zs2.get? j = zs.get? j) := by
  intro cnt
  induction cnt with
  | zero =>
    intro i0 zs _ _ _ _
    refine ⟨zs, ?_, rfl, fun _ _ => rfl, fun j h1 h2 => by omega, fun _ _ => rfl⟩
    rw [show List.range' i0 0 = [] from rfl, List.map_nil, diffAdds_nil]
    rfl
  | succ cnt ihc =>
    intro i0 zs hx hy hlen hagree
    have hix : i0 < xs.length := by omega
    have hiy : i0 < ys.length := by omega
    have hiz : i0 < zs.length := by omega
    obtain ⟨a, ha⟩ := Option.isSome_iff_exists.mp
      (by rw [List.get?_eq_get hix]; rfl : (xs.get? i0).isSome = true)
    obtain ⟨b, hb⟩ := Option.isSome_iff_exists.mp
      (by rw [List.get?_eq_get hiy]; rfl : (ys.get? i0).isSome = true)
    have hza : zs.get? i0 = some a := by rw [hagree i0 le_rfl, ha]
    rw [show List.range' i0 (cnt + 1) = i0 :: List.range' (i0 + 1) cnt from rfl,
      List.map_cons, diffAdds_cons, jsGet, jsGet, arrGet_natToString, arrGet_natToString,
      ha, hb, applyPatches_append]
    -- the block for index i0, then the rest by the inner induction hypothesis
    have step : ∃ r, (applyPatches
        (if typeofObject b && typeofObject a then diff a b (append "" (natToString i0))
         else if !jsStrictEq a b then [⟨.replace, append "" (natToString i0), some b⟩]
         else []) (.arr zs)) = .ok (.arr (zs.set i0 r)) ∧ jeq r b = true := by
      by_cases ht : (typeofObject b && typeofObject a) = true
      · rw [if_pos ht]
        have hcab : compatible a b = true := hcomp i0 a b ha hb
        obtain ⟨r, hr, hjr⟩ := ih a b (List.get?_mem ha) (hwx a (List.get?_mem ha))
          (hwy b (List.get?_mem hb)) hcab
        refine ⟨r, ?_, hjr⟩
        rw [diff_path a b (append "" (natToString i0))]
        exact applyPatches_prepend_arr (fun pa hpa => diff_goodPatch hpa) hza hr
      · rw [if_neg ht]
        by_cases hs : (!jsStrictEq a b) = true
        · rw [if_pos hs]
          refine ⟨b, ?_, jeq_refl b (hwy b (List.get?_mem hb))⟩
          rw [applyPatches, applyPatch_replace_arr hza b]
          rfl
        · rw [if_neg hs]
          have hab : a = b := jsStrictEq_eq (by simpa using hs)
          subst hab
          refine ⟨a, ?_, jeq_refl a (hwy a (List.get?_mem hb))⟩
          rw [list_set_get_self zs i0 a hza]
          rfl
    obtain ⟨r, hstep, hjr⟩ := step
    rw [hstep]
    obtain ⟨zs2, happ2, hlen2, hlo2, hmid2, hhi2⟩ := ihc (i0 + 1) (zs.set i0 r)
      (by omega) (by omega) (by rw [List.length_set]; omega)
      (fun j hj => by rw [list_get?_set_ne zs i0 j r (by omega), hagree j (by omega)])
    refine ⟨zs2, happ2, by rw [hlen2, List.length_set], ?_, ?_, ?_⟩
    · intro j hj
      rw [hlo2 j (by omega), list_get?_set_ne zs i0 j r (by omega)]
    · intro j hj1 hj2
      by_cases hje : j = i0
      · subst hje
        refine ⟨r, b, ?_, hb, hjr⟩
        rw [hlo2 j (by omega), list_get?_set_self zs j r hiz]
      · exact hmid2 j (by omega) (by omega)
    · intro j hj
      rw [hhi2 j (by omega), list_get?_set_ne zs i0 j r (by omega)]

/-- Processing the extension blocks of an array diff: each is an `add` at the
current end of the working array. -/
theorem arr_adds_phase (xs ys : List Json) :
    ∀ (cnt i0 : Nat) (zs : List Json),
      zs.length = i0 → xs.length ≤ i0 → i0 + cnt ≤ ys.length →
      applyPatches (diffAdds (.arr xs) (.arr ys)
          ((List.range' i0 cnt).map natToString) "") (.arr zs) =
        .ok (.arr (zs ++ (ys.drop i0).take cnt)) := by
  intro cnt
  induction cnt with
  | zero =>
    intro i0 zs _ _ _
    rw [show List.range' i0 0 = [] from rfl, List.map_nil, diffAdds_nil]
    rw [List.take_zero, List.append_nil]
    rfl
  | succ cnt ihc =>
    intro i0 zs hzlen hxle hcnt
    have hiy : i0 < ys.length := by omega
    obtain ⟨b, hb⟩ := Option.isSome_iff_exists.mp
      (by rw [List.get?_eq_get hiy]; rfl : (ys.get? i0).isSome = true)
    have hxnone : xs.get? i0 = none := List.get?_eq_none.mpr (by omega)
    rw [show List.range' i0 (cnt + 1) = i0 :: List.range' (i0 + 1) cnt from rfl,
      List.map_cons, diffAdds_cons, jsGet, jsGet, arrGet_natToString, arrGet_natToString,
      hxnone, hb]
    show applyPatches
      (⟨.add, append "" (natToString i0), some b⟩ :: diffAdds (.arr xs) (.arr ys)
        ((List.range' (i0 + 1) cnt).map natToString) "") (.arr zs) = _
    rw [applyPatches, applyPatch_add_arr_end hzlen b]
    show applyPatches (diffAdds (.arr xs) (.arr ys)
      ((List.range' (i0 + 1) cnt).map natToString) "") (.arr (zs ++ [b])) = _
    rw [ihc (i0 + 1) (zs ++ [b]) (by simp [hzlen]) (by omega) (by omega)]
    rw [List.append_assoc]
    have hdrop : ys.drop i0 = b :: ys.drop (i0 + 1) := by
      have hbeq : ys[i0] = b := by
        have h2 : ys.get? i0 = some ys[i0] := by rw [List.get?_eq_get hiy]; rfl
        rw [h2] at hb
        injection hb
      rw [List.drop_eq_getElem_cons hiy, hbeq]
    rw [hdrop, List.take_succ_cons]
    rfl

theorem diffRemoves_arr_none (ys : List Json) {props : List String}
    (h : ∀ p ∈ props, (jsGet (.arr ys) p).isSome = true) (path : String) :
    diffRemoves (.arr ys) props path = [] := diffRemoves_of_isSome _ _ _ h

/-- When `prev` has exactly one more element than `next`, the removal loop
emits exactly one `remove` at the last old index. -/
theorem diffRemoves_arr_last (xs ys : List Json) (h : xs.length = ys.length + 1)
    (path : String) :
    diffRemoves (.arr ys) ((List.range xs.length).map natToString) path =
      [⟨.remove, append path (natToString ys.length), none⟩] := by
  rw [h, List.range_succ, List.map_append, diffRemoves_append]
  rw [diffRemoves_of_isSome _ _ _ (fun p hp => by
    obtain ⟨i, hi, rfl⟩ := List.mem_map.mp hp
    have := List.mem_range.mp hi
    rw [jsGet, arrGet_natToString, List.get?_eq_get this]
    rfl)]
  rw [List.map_singleton, diffRemoves, jsGet, arrGet_natToString,
    List.get?_eq_none.mpr le_rfl]
  rfl

/-- The complete array case of the round trip. -/
theorem roundtrip_arr (xs ys : List Json)
    (ih : ∀ a b : Json, a ∈ xs → wf a = true → wf b = true → compatible a b = true →
      ∃ r, applyPatches (diff a b "") a = .ok r ∧ jeq r b = true)
    (hwx : wf (.arr xs) = true) (hwy : wf (.arr ys) = true)
    (hcomp : compatible (.arr xs) (.arr ys) = true) :
    ∃ r, applyPatches (diff (.arr xs) (.arr ys) "") (.arr xs) = .ok r ∧
      jeq r (.arr ys) = true := by
  have hwxm : ∀ a ∈ xs, wf a = true := fun a ha => wf_arr hwx ha
  have hwym : ∀ b ∈ ys, wf b = true := fun b hb => wf_arr hwy hb
  rw [compatible] at hcomp
  simp only [Bool.and_eq_true, decide_eq_true_eq] at hcomp
  obtain ⟨hlen, hclist⟩ := hcomp
  have hcompi : ∀ i a b, xs.get? i = some a → ys.get? i = some b → compatible a b = true := by
    intro i a b ha hb
    have : ∀ (us vs : List Json), compatibleList us vs = true →
        ∀ j a b, us.get? j = some a → vs.get? j = some b → compatible a b = true := by
      intro us
      induction us with
      | nil => intro vs _ j a b ha2 _; simp at ha2
      | cons u urest ihu =>
        intro vs hc j a b ha2 hb2
        cases vs with
        | nil => simp at hb2
        | cons v vrest =>
          rw [compatibleList] at hc
          simp only [Bool.and_eq_true] at hc
          cases j with
          | zero =>
            injection ha2 with ha2
            injection hb2 with hb2
            exact ha2 ▸ hb2 ▸ hc.1
          | succ j => exact ihu vrest hc.2 j a b ha2 hb2
    exact this xs ys hclist i a b ha hb
  rw [diff, if_neg (by rw [show jsStrictEq (.arr xs) (.arr ys) = false from rfl]; simp),
    if_neg (by rw [show isScalar (.arr xs) = false from rfl,
      show isScalar (.arr ys) = false from rfl]; simp),
    applyPatches_append]
  rw [show jsKeys (.arr ys) = (List.range ys.length).map natToString from rfl,
    show jsKeys (.arr xs) = (List.range xs.length).map natToString from rfl]
  by_cases hle : xs.length ≤ ys.length
  · -- possibly growing: shared prefix converts elements, then adds extend, no removals
    have hsplit : List.range ys.length =
        List.range' 0 xs.length ++ List.range' xs.length (ys.length - xs.length) := by
      have h2 := List.range'_append 0 xs.length (ys.length - xs.length) 1
      rw [show 0 + 1 * xs.length = xs.length by omega] at h2
      rw [show ys.length - xs.length + xs.length = ys.length by omega] at h2
      rw [List.range_eq_range', ← h2]
    rw [hsplit, List.map_append, diffAdds_append, applyPatches_append]
    obtain ⟨zs2, happ2, hlen2, _, hmid2, _⟩ := arr_shared_phase xs ys ih hwxm hwym hcompi
      xs.length 0 xs (by omega) (by omega) rfl (fun _ _ => rfl)
    rw [happ2]
    rw [show (match Except.ok (Json.arr zs2) with
        | Except.ok d => applyPatches (diffAdds (Json.arr xs) (Json.arr ys)
            ((List.range' xs.length (ys.length - xs.length)).map natToString) "") d
        | Except.error e => Except.error e) =
      applyPatches (diffAdds (Json.arr xs) (Json.arr ys)
        ((List.range' xs.length (ys.length - xs.length)).map natToString) "")
        (Json.arr zs2) from rfl]
    rw [arr_adds_phase xs ys (ys.length - xs.length) xs.length zs2 (by omega) le_rfl (by omega)]
    rw [diffRemoves_arr_none ys (fun p hp => by
      obtain ⟨i, hi, rfl⟩ := List.mem_map.mp hp
      have hi2 := List.mem_range.mp hi
      rw [jsGet, arrGet_natToString, List.get?_eq_get (by omega : i < ys.length)]
      rfl) ""]
    refine ⟨.arr (zs2 ++ (ys.drop xs.length).take (ys.length - xs.length)), rfl, ?_⟩
    rw [jeq_arr_iff]
    have hlen3 : (zs2 ++ (ys.drop xs.length).take (ys.length - xs.length)).length = ys.length := by
      rw [List.length_append, List.length_take, List.length_drop]
      omega
    refine ⟨hlen3, jeqList_of_forall2 hlen3 ?_⟩
    intro j w b hw hb
    by_cases hj : j < xs.length
    · rw [List.get?_append (by omega)] at hw
      obtain ⟨w2, b2, hw2, hb2, hj2⟩ := hmid2 j (by omega) (by omega)
      rw [hw2] at hw
      injection hw with hw
      rw [hb2] at hb
      injection hb with hb
      exact hw ▸ hb ▸ hj2
    · rw [List.get?_append_right (by omega)] at hw
      rw [hlen2] at hw
      rw [List.get?_take (by
        have hjy : j < ys.length := by
          by_contra hc
          rw [List.get?_eq_none.mpr (by omega)] at hb
          exact Option.noConfusion hb
        omega), List.get?_drop] at hw
      rw [show xs.length + (j - xs.length) = j by omega, hb] at hw
      injection hw with hw
      subst hw
      exact jeq_refl b (hwym b (List.get?_mem hb))
  · -- shrinking by one: shared prefix, then a single trailing removal
    have hlen4 : xs.length = ys.length + 1 := by omega
    obtain ⟨zs2, happ2, hlen2, _, hmid2, hhi2⟩ := arr_shared_phase xs ys ih hwxm hwym hcompi
      ys.length 0 xs (by omega) (by omega) rfl (fun _ _ => rfl)
    rw [List.range_eq_range']
    rw [happ2]
    rw [show (match Except.ok (Json.arr zs2) with
        | Except.ok d => applyPatches (diffRemoves (Json.arr ys)
            ((List.range xs.length).map natToString) "") d
        | Except.error e => Except.error e) =
      applyPatches (diffRemoves (Json.arr ys)
        ((List.range xs.length).map natToString) "") (Json.arr zs2) from rfl]
    rw [diffRemoves_arr_last xs ys hlen4 ""]
    rw [applyPatches, applyPatch_remove_arr_last (by omega : zs2.length = ys.length + 1)]
    refine ⟨.arr (zs2.take ys.length), rfl, ?_⟩
    rw [jeq_arr_iff]
    have hlen5 : (zs2.take ys.length).length = ys.length := by
      rw [List.length_take]
      omega
    refine ⟨hlen5, jeqList_of_forall2 hlen5 ?_⟩
    intro j w b hw hb
    have hjy : j < ys.length := by
      by_contra hc
      rw [List.get?_eq_none.mpr (by omega)] at hb
      exact Option.noConfusion hb
    rw [List.get?_take hjy] at hw
    obtain ⟨w2, b2, hw2, hb2, hj2⟩ := hmid2 j (by omega) (by omega)
    rw [hw2] at hw
    injection hw with hw
    rw [hb2] at hb
    injection hb with hb
    exact hw ▸ hb ▸ hj2

theorem objGet_eq_none_of_not_mem {kvs : List (String × Json)} {k : String}
    (h : k ∉ kvs.map Prod.fst) : objGet kvs k = none := by
  cases hg : objGet kvs k with
  | none => rfl
  | some v => exact absurd (objGet_mem_keys (by rw [hg]; rfl)) h

theorem objGet_append_of_not_mem_left {l1 l2 : List (String × Json)} {k : String}
    (h : k ∉ l1.map Prod.fst) : objGet (l1 ++ l2) k = objGet l2 k := by
  induction l1 with
  | nil => rfl
  | cons kv rest ih =>
    obtain ⟨k', v'⟩ := kv
    rw [List.cons_append, objGet_cons, if_neg (by
      intro he
      exact h (by rw [List.map_cons, he]; simp))]
    exact ih fun hm => h (by rw [List.map_cons]; simp [hm])

theorem setKey_append_fresh {kvs : List (String × Json)} {k : String}
    (h : k ∉ kvs.map Prod.fst) (v : Json) : setKey kvs k v = kvs ++ [(k, v)] := by
  induction kvs with
  | nil => rfl
  | cons kv rest ih =>
    obtain ⟨k', v'⟩ := kv
    rw [setKey, if_neg (by
      intro he
      exact h (by rw [List.map_cons, he]; simp))]
    rw [ih fun hm => h (by rw [List.map_cons]; simp [hm])]
    rfl

theorem objGet_setKey_ne {kvs : List (String × Json)} {k k' : String} (h : k' ≠ k)
    (v : Json) : objGet (setKey kvs k v) k' = objGet kvs k' := by
  induction kvs with
  | nil =>
    show objGet [(k, v)] k' = objGet ([] : List (String × Json)) k'
    rw [objGet_cons, if_neg (fun he => h he.symm)]
  | cons kv rest ih =>
    obtain ⟨k2, v2⟩ := kv
    rw [setKey]
    by_cases hk : k2 = k
    · rw [if_pos hk, objGet_cons, objGet_cons, if_neg (fun he => h he.symm),
        if_neg (by rw [hk]; exact fun he => h he.symm)]
    · rw [if_neg hk, objGet_cons, objGet_cons, ih]

theorem keys_setKey_of_mem {kvs : List (String × Json)} {k : String}
    (h : k ∈ kvs.map Prod.fst) (v : Json) :
    (setKey kvs k v).map Prod.fst = kvs.map Prod.fst := by
  induction kvs with
  | nil => simp at h
  | cons kv rest ih =>
    obtain ⟨k2, v2⟩ := kv
    rw [setKey]
    by_cases hk : k2 = k
    · rw [if_pos hk, List.map_cons, List.map_cons, hk]
    · rw [if_neg hk, List.map_cons, List.map_cons, ih (by
        rw [List.map_cons] at h
        rcases List.mem_cons.mp h with he | he
        · exact absurd he.symm hk
        · exact he)]

theorem nodupKeys_append_singleton {kvs : List (String × Json)} {k : String}
    (hnd : nodupKeys kvs = true) (h : k ∉ kvs.map Prod.fst) (v : Json) :
    nodupKeys (kvs ++ [(k, v)]) = true := by
  induction kvs with
  | nil => simp [nodupKeys]
  | cons kv rest ih =>
    obtain ⟨k2, v2⟩ := kv
    rw [nodupKeys] at hnd
    simp only [Bool.and_eq_true, Bool.not_eq_true'] at hnd
    rw [List.cons_append, nodupKeys]
    simp only [Bool.and_eq_true, Bool.not_eq_true']
    refine ⟨?_, ih hnd.2 fun hm => h (by rw [List.map_cons]; simp [hm])⟩
    rw [List.any_append, hnd.1]
    simp only [Bool.false_or, List.any_cons, List.any_nil, Bool.or_false]
    simp only [beq_eq_false_iff_ne, ne_eq]
    intro he
    exact h (by rw [List.map_cons, he]; simp)

theorem nodupKeys_of_keys_eq {l1 l2 : List (String × Json)}
    (h : l1.map Prod.fst = l2.map Prod.fst) (hnd : nodupKeys l1 = true) :
    nodupKeys l2 = true := by
  rw [nodupKeys_iff] at *
  rw [← h]
  exact hnd

theorem objGet_eraseKey_ne {kvs : List (String × Json)} {k k' : String} (h : k' ≠ k) :
    objGet (eraseKey kvs k) k' = objGet kvs k' := by
  induction kvs with
  | nil => rfl
  | cons kv rest ih =>
    obtain ⟨k2, v2⟩ := kv
    rw [eraseKey]
    by_cases hk : k2 = k
    · rw [if_pos hk, objGet_cons, if_neg (by rw [hk]; exact fun he => h he.symm)]
    · rw [if_neg hk, objGet_cons, objGet_cons, ih]

theorem keys_eraseKey_of_nodup {kvs : List (String × Json)} {k : String}
    (hnd : nodupKeys kvs = true) :
    ∀ k', k' ∈ (eraseKey kvs k).map Prod.fst ↔ (k' ∈ kvs.map Prod.fst ∧ k' ≠ k) := by
  induction kvs with
  | nil => intro k'; simp [eraseKey]
  | cons kv rest ih =>
    intro k'
    obtain ⟨k2, v2⟩ := kv
    rw [nodupKeys] at hnd
    simp only [Bool.and_eq_true, Bool.not_eq_true'] at hnd
    have hfresh : ∀ kv2 ∈ rest, kv2.fst ≠ k2 := by
      intro kv2 hkv2 he
      have : rest.any (fun x => x.fst == k2) = true :=
        List.any_eq_true.mpr ⟨kv2, hkv2, by simp [he]⟩
      rw [this] at hnd
      exact Bool.noConfusion hnd.1
    rw [eraseKey]
    by_cases hk : k2 = k
    · rw [if_pos hk]
      constructor
      · intro hm
        obtain ⟨kv2, hkv2, rfl⟩ := List.mem_map.mp hm
        refine ⟨by rw [List.map_cons]; simp [List.mem_map.mpr ⟨kv2, hkv2, rfl⟩], ?_⟩
        intro he
        exact hfresh kv2 hkv2 (he.trans hk.symm)
      · rintro ⟨hm, hne⟩
        rw [List.map_cons] at hm
        rcases List.mem_cons.mp hm with he | he
        · exact absurd (he.trans hk) hne
        · exact he
    · rw [if_neg hk, List.map_cons, List.map_cons]
      simp only [List.mem_cons]
      rw [ih hnd.2 k']
      constructor
      · rintro (he | ⟨hm, hne⟩)
        · refine ⟨Or.inl he, ?_⟩
          rw [he]
          exact fun hc => hk hc
        · exact ⟨Or.inr hm, hne⟩
      · rintro ⟨he | hm, hne⟩
        · exact Or.inl he
        · exact Or.inr ⟨hm, hne⟩

theorem applyPatch_add_obj (kvs : List (String × Json)) (k : String) (v : Json) :
    applyPatch (.obj kvs) ⟨.add, append "" k, some v⟩ = .ok (.obj (setKey kvs k v)) := by
  rw [applyPatch, parsePointer_segment]
  rfl

theorem applyPatch_replace_obj {kvs : List (String × Json)} {k : String} {pv : Json}
    (h : objGet kvs k = some pv) (v : Json) :
    applyPatch (.obj kvs) ⟨.replace, append "" k, some v⟩ = .ok (.obj (setKey kvs k v)) := by
  rw [applyPatch, parsePointer_segment]
  show (match objGet kvs k, some v with
        | some _, some w => Except.ok (Json.obj (setKey kvs k w))
        | _, _ => Except.error "path does not exist") = _
  rw [h]

theorem applyPatch_remove_obj {kvs : List (String × Json)} {k : String} {pv : Json}
    (h : objGet kvs k = some pv) :
    applyPatch (.obj kvs) ⟨.remove, append "" k, none⟩ = .ok (.obj (eraseKey kvs k)) := by
  rw [applyPatch, parsePointer_segment]
  show (match objGet kvs k with
        | some _ => Except.ok (Json.obj (eraseKey kvs k))
        | none => Except.error "path does not exist") = _
  rw [h]

theorem compatibleObj_lookup : ∀ {ps ns : List (String × Json)} {k : String} {pv nv : Json},
    compatibleObj ps ns = true → (k, pv) ∈ ps → objGet ns k = some nv →
    compatible pv nv = true := by
  intro ps
  induction ps with
  | nil => intro ns k pv nv _ hm; simp at hm
  | cons kv rest ih =>
    intro ns k pv nv hc hm hg
    obtain ⟨k', v'⟩ := kv
    rw [compatibleObj] at hc
    simp only [Bool.and_eq_true] at hc
    rcases List.mem_cons.mp hm with he | he
    · injection he with h1 h2
      subst h1
      subst h2
      rw [hg] at hc
      exact hc.1
    · exact ih hc.2 he hg

theorem nodupKeys_append_cons_split {ns1 rest : List (String × Json)} {k : String} {nv : Json}
    (hnd : nodupKeys (ns1 ++ (k, nv) :: rest) = true) :
    k ∉ ns1.map Prod.fst ∧ k ∉ rest.map Prod.fst ∧
      nodupKeys (ns1 ++ rest) = true := by
  rw [nodupKeys_iff, List.map_append, List.map_cons] at hnd
  rw [List.nodup_append] at hnd
  obtain ⟨h1, h2, h3⟩ := hnd
  rw [List.nodup_cons] at h2
  refine ⟨fun hm => h3 hm (by simp), h2.1, ?_⟩
  rw [nodupKeys_iff, List.map_append, List.nodup_append]
  exact ⟨h1, h2.2, fun a ha hb => h3 ha (by simp [hb])⟩

theorem objGet_append_left {l1 : List (String × Json)} {k : String} {v : Json}
    (h : objGet l1 k = some v) (l2 : List (String × Json)) :
    objGet (l1 ++ l2) k = some v := by
  induction l1 with
  | nil => simp [objGet] at h
  | cons kv rest ih =>
    obtain ⟨k', v'⟩ := kv
    rw [objGet_cons] at h
    rw [List.cons_append, objGet_cons]
    by_cases hk : k' = k
    · rw [if_pos hk] at h ⊢
      exact h
    · rw [if_neg hk]
      rw [if_neg hk] at h
      exact ih h

/-- Processing the `keys(next)` loop of an object diff: afterwards every key
of `next` holds a value deep-equal to `next`'s, keys of `prev` absent from
`next` still hold their original values, and no other keys exist. -/
theorem obj_ns_phase (ps ns : List (String × Json))
    (ih : ∀ a b : Json, (∃ k, (k, a) ∈ ps) → wf a = true → wf b = true →
      compatible a b = true →
      ∃ r, applyPatches (diff a b "") a = .ok r ∧ jeq r b = true)
    (hndn : nodupKeys ns = true)
    (hwn : ∀ kv ∈ ns, wf kv.snd = true)
    (hwp : ∀ kv ∈ ps, wf kv.snd = true)
    (hcomp : compatibleObj ps ns = true) :
    ∀ (ns2 ns1 : List (String × Json)), ns = ns1 ++ ns2 →
    ∀ (kvs : List (String × Json)),
      nodupKeys kvs = true →
      (∀ k, k ∈ kvs.map Prod.fst ↔ (k ∈ ps.map Prod.fst ∨ k ∈ ns1.map Prod.fst)) →
      (∀ k v, objGet ps k = some v → k ∉ ns1.map Prod.fst → objGet kvs k = some v) →
      (∀ k v, objGet ns k = some v → k ∈ ns1.map Prod.fst →
        ∃ w, objGet kvs k = some w ∧ jeq w v = true) →
      ∃ kvs2, applyPatches (diffAdds (.obj ps) (.obj ns) (ns2.map Prod.fst) "") (.obj kvs) =
          .ok (.obj kvs2) ∧
        nodupKeys kvs2 = true ∧
        (∀ k, k ∈ kvs2.map Prod.fst ↔ (k ∈ ps.map Prod.fst ∨ k ∈ ns.map Prod.fst)) ∧
        (∀ k v, objGet ps k = some v → k ∉ ns.map Prod.fst → objGet kvs2 k = some v) ∧
        (∀ k v, objGet ns k = some v → ∃ w, objGet kvs2 k = some w ∧ jeq w v = true) := by
  intro ns2
  induction ns2 with
  | nil =>
    intro ns1 hns kvs hnd hkeys hups hproc
    rw [List.append_nil] at hns
    subst hns
    refine ⟨kvs, ?_, hnd, hkeys, hups, ?_⟩
    · rw [List.map_nil, diffAdds_nil]
      rfl
    · intro k v hg
      exact hproc k v hg (objGet_mem_keys (by rw [hg]; rfl))
  | cons kvn rest ihn =>
    intro ns1 hns kvs hnd hkeys hups hproc
    obtain ⟨k, nv⟩ := kvn
    obtain ⟨hk_ns1, hk_rest, _⟩ := nodupKeys_append_cons_split (hns ▸ hndn)
    have hg_ns : objGet ns k = some nv := by
      rw [hns, objGet_append_of_not_mem_left hk_ns1, objGet_cons, if_pos rfl]
    have hwnv : wf nv = true := hwn (k, nv) (by rw [hns]; simp)
    have hns2 : ns = (ns1 ++ [(k, nv)]) ++ rest := by rw [hns, List.append_assoc]; rfl
    rw [List.map_cons, diffAdds_cons,
      show jsGet (.obj ps) k = objGet ps k from rfl,
      show jsGet (.obj ns) k = objGet ns k from rfl, hg_ns]
    cases hg_ps : objGet ps k with
    | none =>
      have hknp : k ∉ ps.map Prod.fst := by
        intro hm
        have := objGet_isSome_of_mem_keys hm
        rw [hg_ps] at this
        exact Bool.noConfusion this
      have hknk : k ∉ kvs.map Prod.fst := by
        intro hm
        rcases (hkeys k).mp hm with h | h
        · exact hknp h
        · exact hk_ns1 h
      rw [List.singleton_append, applyPatches, applyPatch_add_obj,
        setKey_append_fresh hknk nv]
      refine ihn (ns1 ++ [(k, nv)]) hns2 (kvs ++ [(k, nv)])
        (nodupKeys_append_singleton hnd hknk nv) ?_ ?_ ?_
      · intro k'
        rw [List.map_append, List.map_append, List.mem_append, List.mem_append, hkeys k']
        simp only [List.map_cons, List.map_nil, List.mem_singleton]
        tauto
      · intro k' v' hg' hnm
        rw [List.map_append] at hnm
        have hne : k' ≠ k := fun he => hnm (by simp [he])
        have h1 : k' ∉ ns1.map Prod.fst := fun hm => hnm (by simp [hm])
        exact objGet_append_left (hups k' v' hg' h1) _
      · intro k' v' hg' hmem
        rw [List.map_append] at hmem
        rcases List.mem_append.mp hmem with hm | hm
        · obtain ⟨w, hw, hjw⟩ := hproc k' v' hg' hm
          exact ⟨w, objGet_append_left hw _, hjw⟩
        · simp only [List.map_cons, List.map_nil, List.mem_singleton] at hm
          subst hm
          rw [hg_ns] at hg'
          injection hg' with hg'
          subst hg'
          refine ⟨nv, ?_, jeq_refl nv hwnv⟩
          rw [objGet_append_of_not_mem_left hknk, objGet_cons, if_pos rfl]
    | some pv =>
      have hmem_ps : (k, pv) ∈ ps := objGet_eq_some hg_ps
      have hwpv : wf pv = true := hwp (k, pv) hmem_ps
      have hcur : objGet kvs k = some pv := hups k pv hg_ps hk_ns1
      have hkmem : k ∈ kvs.map Prod.fst := objGet_mem_keys (by rw [hcur]; rfl)
      have step : ∃ r, applyPatches
          (if typeofObject nv && typeofObject pv then diff pv nv (append "" k)
           else if !jsStrictEq pv nv then [⟨.replace, append "" k, some nv⟩]
           else []) (.obj kvs) = .ok (.obj (setKey kvs k r)) ∧ jeq r nv = true := by
        by_cases ht : (typeofObject nv && typeofObject pv) = true
        · rw [if_pos ht]
          obtain ⟨r, hr, hjr⟩ := ih pv nv ⟨k, hmem_ps⟩ hwpv hwnv
            (compatibleObj_lookup hcomp hmem_ps hg_ns)
          refine ⟨r, ?_, hjr⟩
          rw [diff_path pv nv (append "" k)]
          exact applyPatches_prepend_obj (fun pa hpa => diff_goodPatch hpa) hcur hr
        · rw [if_neg ht]
          by_cases hs : (!jsStrictEq pv nv) = true
          · rw [if_pos hs]
            refine ⟨nv, ?_, jeq_refl nv hwnv⟩
            rw [applyPatches, applyPatch_replace_obj hcur nv]
            rfl
          · rw [if_neg hs]
            have hab : pv = nv := jsStrictEq_eq (by simpa using hs)
            subst hab
            refine ⟨pv, ?_, jeq_refl pv hwnv⟩
            rw [setKey_self kvs k pv hcur]
            rfl
      obtain ⟨r, hstep, hjr⟩ := step
      rw [applyPatches_append, hstep]
      have hkeys_set := keys_setKey_of_mem hkmem r
      refine ihn (ns1 ++ [(k, nv)]) hns2 (setKey kvs k r)
        (nodupKeys_of_keys_eq hkeys_set.symm hnd) ?_ ?_ ?_
      · intro k'
        rw [hkeys_set, List.map_append, List.mem_append, hkeys k']
        simp only [List.map_cons, List.map_nil, List.mem_singleton]
        constructor
        · rintro (h | h)
          · exact Or.inl h
          · exact Or.inr (Or.inl h)
        · rintro (h | h | h)
          · exact Or.inl h
          · exact Or.inr h
          · subst h
            exact Or.inl (List.mem_map.mpr ⟨(k', pv), hmem_ps, rfl⟩)
      · intro k' v' hg' hnm
        rw [List.map_append] at hnm
        have hne : k' ≠ k := fun he => hnm (by simp [he])
        have h1 : k' ∉ ns1.map Prod.fst := fun hm => hnm (by simp [hm])
        rw [objGet_setKey_ne hne]
        exact hups k' v' hg' h1
      · intro k' v' hg' hmem
        rw [List.map_append] at hmem
        rcases List.mem_append.mp hmem with hm | hm
        · have hne : k' ≠ k := fun he => hk_ns1 (he ▸ hm)
          obtain ⟨w, hw, hjw⟩ := hproc k' v' hg' hm
          rw [objGet_setKey_ne hne]
          exact ⟨w, hw, hjw⟩
        · simp only [List.map_cons, List.map_nil, List.mem_singleton] at hm
          rw [hm] at hg' ⊢
          rw [hg_ns] at hg'
          injection hg' with hg'
          subst hg'
          exact ⟨r, objGet_setKey_self kvs k r, hjr⟩

theorem nodupKeys_eraseKey {kvs : List (String × Json)} {k : String}
    (hnd : nodupKeys kvs = true) : nodupKeys (eraseKey kvs k) = true := by
  induction kvs with
  | nil => rfl
  | cons kv rest ih =>
    obtain ⟨k2, v2⟩ := kv
    rw [nodupKeys] at hnd
    simp only [Bool.and_eq_true, Bool.not_eq_true'] at hnd
    rw [eraseKey]
    by_cases hk : k2 = k
    · rw [if_pos hk]
      exact hnd.2
    · rw [if_neg hk, nodupKeys]
      simp only [Bool.and_eq_true, Bool.not_eq_true']
      refine ⟨?_, ih hnd.2⟩
      cases hany : (eraseKey rest k).any fun kv => kv.fst == k2 with
      | false => rfl
      | true =>
        obtain ⟨kv2, hkv2, hbeq⟩ := List.any_eq_true.mp hany
        have hmem : kv2.fst ∈ (eraseKey rest k).map Prod.fst :=
          List.mem_map.mpr ⟨kv2, hkv2, rfl⟩
        rw [keys_eraseKey_of_nodup hnd.2] at hmem
        have : rest.any (fun x => x.fst == k2) = true := by
          obtain ⟨kv3, hkv3, hfst⟩ := List.mem_map.mp hmem.1
          exact List.any_eq_true.mpr ⟨kv3, hkv3, by rw [hfst]; exact hbeq⟩
        rw [this] at hnd
        exact hnd.1

/-- Processing the `keys(prev)` loop of an object diff: every key of `prev`
absent from `next` is removed, leaving exactly the keys of `next` with their
deep-equal values intact. -/
theorem obj_removes_phase (ns : List (String × Json)) :
    ∀ (ps2 : List String), ps2.Nodup →
    ∀ (kvs : List (String × Json)),
      nodupKeys kvs = true →
      (∀ k, k ∈ kvs.map Prod.fst ↔ (k ∈ ps2 ∨ k ∈ ns.map Prod.fst)) →
      (∀ k v, objGet ns k = some v → ∃ w, objGet kvs k = some w ∧ jeq w v = true) →
      ∃ kvs2, applyPatches (diffRemoves (.obj ns) ps2 "") (.obj kvs) = .ok (.obj kvs2) ∧
        nodupKeys kvs2 = true ∧
        (∀ k, k ∈ kvs2.map Prod.fst ↔ k ∈ ns.map Prod.fst) ∧
        (∀ k v, objGet ns k = some v → ∃ w, objGet kvs2 k = some w ∧ jeq w v = true) := by
  intro ps2
  induction ps2 with
  | nil =>
    intro _ kvs hnd hkeys hproc
    refine ⟨kvs, by rw [diffRemoves]; rfl, hnd, ?_, hproc⟩
    intro k
    rw [hkeys k]
    simp
  | cons p rest ih =>
    intro hndp kvs hnd hkeys hproc
    rw [List.nodup_cons] at hndp
    rw [diffRemoves]
    cases hg : objGet ns p with
    | some nv =>
      have hstep : (match jsGet (Json.obj ns) p with
          | none => [(⟨.remove, append "" p, none⟩ : Patch)]
          | some _ => []) = ([] : List Patch) := by
        show (match objGet ns p with
          | none => [(⟨.remove, append "" p, none⟩ : Patch)]
          | some _ => []) = ([] : List Patch)
        rw [hg]
      rw [hstep, List.nil_append]
      apply ih hndp.2 kvs hnd ?_ hproc
      intro k
      rw [hkeys k]
      constructor
      · rintro (hm | hm)
        · rcases List.mem_cons.mp hm with he | he
          · subst he
            exact Or.inr (objGet_mem_keys (by rw [hg]; rfl))
          · exact Or.inl he
        · exact Or.inr hm
      · rintro (hm | hm)
        · exact Or.inl (List.mem_cons_of_mem _ hm)
        · exact Or.inr hm
    | none =>
      have hstep : (match jsGet (Json.obj ns) p with
          | none => [(⟨.remove, append "" p, none⟩ : Patch)]
          | some _ => []) = [(⟨.remove, append "" p, none⟩ : Patch)] := by
        show (match objGet ns p with
          | none => [(⟨.remove, append "" p, none⟩ : Patch)]
          | some _ => []) = [(⟨.remove, append "" p, none⟩ : Patch)]
        rw [hg]
      rw [hstep, List.singleton_append]
      have hp_mem : p ∈ kvs.map Prod.fst := (hkeys p).mpr (Or.inl (List.mem_cons_self p rest))
      obtain ⟨pv, hpv⟩ := Option.isSome_iff_exists.mp (objGet_isSome_of_mem_keys hp_mem)
      have hp_ns : p ∉ ns.map Prod.fst := by
        intro hm
        have := objGet_isSome_of_mem_keys hm
        rw [hg] at this
        exact Bool.noConfusion this
      have hnd' : nodupKeys (eraseKey kvs p) = true := nodupKeys_eraseKey hnd
      have hkeys' : ∀ k, k ∈ (eraseKey kvs p).map Prod.fst ↔
          (k ∈ rest ∨ k ∈ ns.map Prod.fst) := by
        intro k
        rw [keys_eraseKey_of_nodup hnd, hkeys k]
        constructor
        · rintro ⟨hm | hm, hne⟩
          · rcases List.mem_cons.mp hm with he | he
            · exact absurd he hne
            · exact Or.inl he
          · exact Or.inr hm
        · rintro (hm | hm)
          · exact ⟨Or.inl (List.mem_cons_of_mem _ hm), fun he => hndp.1 (he ▸ hm)⟩
          · exact ⟨Or.inr hm, fun he => hp_ns (he ▸ hm)⟩
      have hproc' : ∀ k v, objGet ns k = some v →
          ∃ w, objGet (eraseKey kvs p) k = some w ∧ jeq w v = true := by
        intro k v hgk
        have hk_ns : k ∈ ns.map Prod.fst := objGet_mem_keys (by rw [hgk]; rfl)
        have hne : k ≠ p := fun he => hp_ns (he ▸ hk_ns)
        rw [objGet_eraseKey_ne hne]
        exact hproc k v hgk
      obtain ⟨kvs2, happ2, hnd2, hkeys2, hproc2⟩ :=
        ih hndp.2 (eraseKey kvs p) hnd' hkeys' hproc'
      refine ⟨kvs2, ?_, hnd2, hkeys2, hproc2⟩
      rw [applyPatches, applyPatch_remove_obj hpv]
      exact happ2

/-- Round trip for an object node: applying the diff's patches to `prev`
yields a document deep-equal to `next`. -/
theorem roundtrip_obj (ps ns : List (String × Json))
    (ih : ∀ a b : Json, (∃ k, (k, a) ∈ ps) → wf a = true → wf b = true →
      compatible a b = true →
      ∃ r, applyPatches (diff a b "") a = .ok r ∧ jeq r b = true)
    (hwp : wf (.obj ps) = true) (hwn : wf (.obj ns) = true)
    (hcomp : compatible (.obj ps) (.obj ns) = true) :
    ∃ r, applyPatches (diff (.obj ps) (.obj ns) "") (.obj ps) = .ok r ∧
      jeq r (.obj ns) = true := by
  have hndp := wf_obj_nodup hwp
  have hndn := wf_obj_nodup hwn
  have hwpm : ∀ kv ∈ ps, wf kv.snd = true := fun kv hkv => wf_obj_values hwp hkv
  have hwnm : ∀ kv ∈ ns, wf kv.snd = true := fun kv hkv => wf_obj_values hwn hkv
  rw [compatible] at hcomp
  have hdiff : diff (.obj ps) (.obj ns) "" =
      diffAdds (.obj ps) (.obj ns) (ns.map Prod.fst) "" ++
        diffRemoves (.obj ns) (ps.map Prod.fst) "" := by
    rw [diff]
    simp [jsStrictEq, isScalar, jsKeys]
  obtain ⟨kvs2, happ2, hnd2, hkeys2, hups2, hproc2⟩ :=
    obj_ns_phase ps ns ih hndn hwnm hwpm hcomp ns [] rfl ps hndp
      (fun k => by simp)
      (fun k v hg _ => hg)
      (fun k v _ hm => absurd hm (by simp))
  obtain ⟨kvs3, happ3, hnd3, hkeys3, hproc3⟩ :=
    obj_removes_phase ns (ps.map Prod.fst) (nodupKeys_iff.mp hndp) kvs2 hnd2 hkeys2 hproc2
  refine ⟨.obj kvs3, ?_, ?_⟩
  · rw [hdiff, applyPatches_append, happ2]
    exact happ3
  · rw [jeq_obj_iff]
    have hperm : List.Perm (kvs3.map Prod.fst) (ns.map Prod.fst) :=
      (List.perm_ext_iff_of_nodup (nodupKeys_iff.mp hnd3) (nodupKeys_iff.mp hndn)).mpr hkeys3
    constructor
    · have := hperm.length_eq
      simpa using this
    · apply jeqObj_of_lookup
      intro kv hkv
      have hmem : kv.fst ∈ ns.map Prod.fst :=
        (hkeys3 kv.fst).mp (List.mem_map.mpr ⟨kv, hkv, rfl⟩)
      obtain ⟨w, hw⟩ := Option.isSome_iff_exists.mp (objGet_isSome_of_mem_keys hmem)
      obtain ⟨w2, hw2, hjw⟩ := hproc3 kv.fst w hw
      have hg3 : objGet kvs3 kv.fst = some kv.snd := objGet_of_nodup_mem hnd3 hkv
      rw [hg3] at hw2
      injection hw2 with hw2
      subst hw2
      exact ⟨w, hw, hjw⟩

/-- Strong-induction core of the round-trip theorem. -/
theorem diff_roundtrip_aux : ∀ (n : Nat) (prev next : Json), sizeOf prev ≤ n →
    wf prev = true → wf next = true → compatible prev next = true →
    ∃ r, applyPatches (diff prev next "") prev = .ok r ∧ jeq r next = true := by
  intro n
  induction n with
  | zero =>
    intro prev next hle _ _ _
    exact absurd hle (by have := sizeOf_json_pos prev; omega)
  | succ m ihm =>
    intro prev next hle hwp hwn hcomp
    by_cases hse : jsStrictEq prev next = true
    · have heq := jsStrictEq_eq hse
      subst heq
      refine ⟨prev, ?_, jeq_refl prev hwp⟩
      rw [diff, if_pos hse]
      rfl
    · by_cases hsc : (isScalar prev || isScalar next) = true
      · refine ⟨next, ?_, jeq_refl next hwn⟩
        rw [diff, if_neg hse, if_pos hsc]
        rfl
      · simp only [Bool.or_eq_true, not_or, Bool.not_eq_true] at hsc
        cases prev with
        | null => exact absurd hsc.1 (by simp [isScalar])
        | bool b => exact absurd hsc.1 (by simp [isScalar])
        | num i => exact absurd hsc.1 (by simp [isScalar])
        | str s => exact absurd hsc.1 (by simp [isScalar])
        | arr xs =>
          cases next with
          | null => exact absurd hsc.2 (by simp [isScalar])
          | bool b => exact absurd hsc.2 (by simp [isScalar])
          | num i => exact absurd hsc.2 (by simp [isScalar])
          | str s => exact absurd hsc.2 (by simp [isScalar])
          | obj ns =>
            rw [compatible] at hcomp
            exact Bool.noConfusion hcomp
          | arr ys =>
            apply roundtrip_arr xs ys ?_ hwp hwn hcomp
            intro a b ha hwa hwb hcab
            apply ihm a b ?_ hwa hwb hcab
            have h1 := List.sizeOf_lt_of_mem ha
            have h2 : sizeOf (Json.arr xs) = 1 + sizeOf xs := by simp
            omega
        | obj ps =>
          cases next with
          | null => exact absurd hsc.2 (by simp [isScalar])
          | bool b => exact absurd hsc.2 (by simp [isScalar])
          | num i => exact absurd hsc.2 (by simp [isScalar])
          | str s => exact absurd hsc.2 (by simp [isScalar])
          | arr ys =>
            rw [compatible] at hcomp
            exact Bool.noConfusion hcomp
          | obj ns =>
            apply roundtrip_obj ps ns ?_ hwp hwn hcomp
            intro a b ha hwa hwb hcab
            apply ihm a b ?_ hwa hwb hcab
            obtain ⟨k, hk⟩ := ha
            have h1 := List.sizeOf_lt_of_mem hk
            have h2 : sizeOf (Json.obj ps) = 1 + sizeOf ps := by simp
            have h3 : sizeOf (k, a) = 1 + sizeOf k + sizeOf a := by simp
            omega

/-- Applying `diff prev next ""` to `prev` (under RFC 6902 semantics)
succeeds and yields a document deep-equal to `next`, for well-formed inputs
whose container skeletons are compatible (matching container kinds at every
shared position, arrays shrinking by at most one element). -/
theorem diff_roundtrip (prev next : Json)
    (hwp : wf prev = true) (hwn : wf next = true)
    (hcomp : compatible prev next = true) :
    ∃ r, applyPatches (diff prev next "") prev = .ok r ∧ jeq r next = true :=
  diff_roundtrip_aux (sizeOf prev) prev next le_rfl hwp hwn hcomp

theorem diff_roundtrip_witness :
    wf (Json.obj [("a", .arr [.num 1, .num 2]), ("b", .str "x")]) = true ∧
    wf (Json.obj [("a", .arr [.num 5]), ("c", .bool true)]) = true ∧
    compatible (Json.obj [("a", .arr [.num 1, .num 2]), ("b", .str "x")])
        (Json.obj [("a", .arr [.num 5]), ("c", .bool true)]) = true ∧
    ∃ r, applyPatches
        (diff (Json.obj [("a", .arr [.num 1, .num 2]), ("b", .str "x")])
          (Json.obj [("a", .arr [.num 5]), ("c", .bool true)]) "")
        (Json.obj [("a", .arr [.num 1, .num 2]), ("b", .str "x")]) = .ok r ∧
      jeq r (Json.obj [("a", .arr [.num 5]), ("c", .bool true)]) = true := by
  refine ⟨?h1, ?h2, ?h3, ?_⟩
  case h1 => simp [wf, wfList, wfObj, nodupKeys]
  case h2 => simp [wf, wfList, wfObj, nodupKeys]
  case h3 => simp [compatible, compatibleList, compatibleObj, objGet_cons, objGet]
  exact diff_roundtrip _ _ (by simp [wf, wfList, wfObj, nodupKeys])
    (by simp [wf, wfList, wfObj, nodupKeys])
    (by simp [compatible, compatibleList, compatibleObj, objGet_cons, objGet])

/-! ## Cascading removals on arrays -/

theorem diffAdds_cons_skip {prev next : Json} {prop : String} {v : Json}
    (hp : jsGet prev prop = some v) (hn : jsGet next prop = some v)
    (rest : List String) (path : String) :
    diffAdds prev next (prop :: rest) path = diffAdds prev next rest path := by
  rw [diffAdds_cons]
  cases hto : typeofObject v with
  | false => simp [hp, hn, hto, jsStrictEq_refl_of_not_typeofObject hto]
  | true => simp [hp, hn, hto, diff_self]

theorem diffAdds_cons_replace {prev next : Json} {prop : String} {pv nv : Json}
    (hp : jsGet prev prop = some pv) (hn : jsGet next prop = some nv)
    (hto : (typeofObject nv && typeofObject pv) = false)
    (hne : jsStrictEq pv nv = false)
    (rest : List String) (path : String) :
    diffAdds prev next (prop :: rest) path =
      ⟨.replace, append path prop, some nv⟩ :: diffAdds prev next rest path := by
  rw [diffAdds_cons]
  simp [hp, hn, hto, hne]

theorem diffAdds_arr_skip (xs ys : List Json) (path : String) :
    ∀ l : List Nat, (∀ i ∈ l, ∃ v, xs.get? i = some v ∧ ys.get? i = some v) →
    diffAdds (.arr xs) (.arr ys) (l.map natToString) path = [] := by
  intro l
  induction l with
  | nil => intro _; rw [List.map_nil, diffAdds_nil]
  | cons i rest ih =>
    intro h
    obtain ⟨v, hx, hy⟩ := h i (by simp)
    rw [List.map_cons,
      diffAdds_cons_skip
        (show jsGet (Json.arr xs) (natToString i) = some v by
          rw [jsGet, arrGet_natToString]; exact hx)
        (by rw [jsGet, arrGet_natToString]; exact hy)]
    exact ih fun i2 hi2 => h i2 (by simp [hi2])

theorem diffAdds_arr_replace (xs ys : List Json) (path : String) :
    ∀ l : List Nat,
    (∀ i ∈ l, ∃ pv nv, xs.get? i = some pv ∧ ys.get? i = some nv ∧
      (typeofObject nv && typeofObject pv) = false ∧ jsStrictEq pv nv = false) →
    diffAdds (.arr xs) (.arr ys) (l.map natToString) path =
      l.map fun i => (⟨.replace, append path (natToString i), ys.get? i⟩ : Patch) := by
  intro l
  induction l with
  | nil => intro _; rw [List.map_nil, List.map_nil, diffAdds_nil]
  | cons i rest ih =>
    intro h
    obtain ⟨pv, nv, hx, hy, hto, hne⟩ := h i (by simp)
    rw [List.map_cons,
      diffAdds_cons_replace (by rw [jsGet, arrGet_natToString]; exact hx)
        (by rw [jsGet, arrGet_natToString]; exact hy) hto hne,
      ih fun i2 hi2 => h i2 (by simp [hi2]), List.map_cons, hy]

/-- Removing the element at index `j` from an array whose remaining shifted
neighbours are pairwise-distinct scalars produces a `replace` for every
shifted index followed by one trailing `remove`. -/
theorem diff_arr_erase (xs : List Json) (j : Nat) (hj : j < xs.length)
    (hdiffer : ∀ i, j ≤ i → i + 1 < xs.length →
      (typeofObject (xs.getD (i + 1) .null) && typeofObject (xs.getD i .null)) = false ∧
      jsStrictEq (xs.getD i .null) (xs.getD (i + 1) .null) = false) :
    diff (.arr xs) (.arr (xs.take j ++ xs.drop (j + 1))) "" =
      ((List.range' j (xs.length - 1 - j)).map fun i =>
        (⟨.replace, append "" (natToString i), xs.get? (i + 1)⟩ : Patch)) ++
      [⟨.remove, append "" (natToString (xs.length - 1)), none⟩] := by
  set ys := xs.take j ++ xs.drop (j + 1) with hys
  have hlen : ys.length = xs.length - 1 := by
    rw [hys, List.length_append, List.length_take, List.length_drop]
    omega
  have hget_lt : ∀ i, i < j → ys.get? i = xs.get? i := by
    intro i hi
    rw [hys, List.get?_append (by rw [List.length_take]; omega), List.get?_take hi]
  have hget_ge : ∀ i, j ≤ i → ys.get? i = xs.get? (i + 1) := by
    intro i hi
    rw [hys, List.get?_append_right (by rw [List.length_take]; omega), List.get?_drop,
      List.length_take]
    congr 1
    omega
  have hdiff : diff (.arr xs) (.arr ys) "" =
      diffAdds (.arr xs) (.arr ys) ((List.range ys.length).map natToString) "" ++
        diffRemoves (.arr ys) ((List.range xs.length).map natToString) "" := by
    rw [diff]
    simp [jsStrictEq, isScalar, jsKeys]
  rw [hdiff]
  have hsplit : List.range ys.length = List.range' 0 j ++ List.range' j (xs.length - 1 - j) := by
    have h2 := List.range'_append 0 j (xs.length - 1 - j) 1
    rw [show 0 + 1 * j = j by omega] at h2
    rw [show xs.length - 1 - j + j = ys.length by omega] at h2
    rw [List.range_eq_range', ← h2]
  rw [hsplit, List.map_append, diffAdds_append]
  rw [diffAdds_arr_skip xs ys "" (List.range' 0 j) (by
    intro i hi
    have hij : i < j := by
      have := List.mem_range'_1.mp hi
      omega
    have hix : i < xs.length := by omega
    refine ⟨xs.get ⟨i, hix⟩, List.get?_eq_get hix, ?_⟩
    rw [hget_lt i hij, List.get?_eq_get hix])]
  rw [diffAdds_arr_replace xs ys "" (List.range' j (xs.length - 1 - j)) (by
    intro i hi
    have hir := List.mem_range'_1.mp hi
    have hi1 : i + 1 < xs.length := by omega
    have hix : i < xs.length := by omega
    obtain ⟨hto, hne⟩ := hdiffer i hir.1 hi1
    refine ⟨xs.get ⟨i, hix⟩, xs.get ⟨i + 1, hi1⟩, List.get?_eq_get hix, ?_, ?_, ?_⟩
    · rw [hget_ge i hir.1, List.get?_eq_get hi1]
    · rw [List.getD_eq_get? , List.getD_eq_get?, List.get?_eq_get hix,
        List.get?_eq_get hi1] at hto
      exact hto
    · rw [List.getD_eq_get?, List.getD_eq_get?, List.get?_eq_get hix,
        List.get?_eq_get hi1] at hne
      exact hne)]
  rw [diffRemoves_arr_last xs ys (by omega) "", List.nil_append, hlen]
  congr 1
  apply List.map_congr_left
  intro i hi
  have hir := List.mem_range'_1.mp hi
  rw [hget_ge i hir.1]

/-- C3: `diff([1,2,3],[2,3])` is exactly `[replace /0 2, replace /1 3,
remove /2]`, in that order; in general, removing the element at index `j`
of an array (when the shifted neighbours are pairwise non-identical and not
both objects) produces a `replace` for every subsequent shifted index
followed by a single trailing `remove`. -/
theorem diff_cascading_removal :
    (diff (.arr [.num 1, .num 2, .num 3]) (.arr [.num 2, .num 3]) "" =
      [⟨.replace, "/0", some (.num 2)⟩, ⟨.replace, "/1", some (.num 3)⟩,
       ⟨.remove, "/2", none⟩]) ∧
    (∀ (xs : List Json) (j : Nat), j < xs.length →
      (∀ i, j ≤ i → i + 1 < xs.length →
        (typeofObject (xs.getD (i + 1) .null) && typeofObject (xs.getD i .null)) = false ∧
        jsStrictEq (xs.getD i .null) (xs.getD (i + 1) .null) = false) →
      diff (.arr xs) (.arr (xs.take j ++ xs.drop (j + 1))) "" =
        ((List.range' j (xs.length - 1 - j)).map fun i =>
          (⟨.replace, append "" (natToString i), xs.get? (i + 1)⟩ : Patch)) ++
        [⟨.remove, append "" (natToString (xs.length - 1)), none⟩]) := by
  constructor
  · simp [diff, diffAdds_nil, diffAdds_cons, diffRemoves, jsKeys, jsGet, arrGet, objGet,
      jsStrictEq, isScalar, typeofObject, append, escapeSegment, replaceChar,
      natToString_zero, natToString_one, natToString_two, natToString_three,
      List.range_succ, List.find?]
  · exact diff_arr_erase

theorem diff_cascading_removal_witness :
    diff (.arr [.num 1, .num 2, .num 3])
        (.arr (([Json.num 1, .num 2, .num 3]).take 0 ++ ([Json.num 1, .num 2, .num 3]).drop 1)) "" =
      ((List.range' 0 ([Json.num 1, .num 2, .num 3].length - 1 - 0)).map fun i =>
        (⟨.replace, append "" (natToString i), ([Json.num 1, .num 2, .num 3]).get? (i + 1)⟩ : Patch)) ++
      [⟨.remove, append "" (natToString ([Json.num 1, .num 2, .num 3].length - 1)), none⟩] :=
  diff_cascading_removal.2 [.num 1, .num 2, .num 3] 0 (by decide)
    (by
      intro i h0 h2
      have h3 : i < 2 := by simp at h2; omega
      interval_cases i <;> exact ⟨rfl, rfl⟩)

/-! ## Totality of the diff engine

JavaScript `diff` could only throw where it dereferences its arguments:
`keys(x)` calls `Object.keys(x)` (a `TypeError` on `null`) and `x[prop]`
property access (a `TypeError` on `null`).  `keysE`/`jsGetE` mirror those
operations with their error cases, and `diffE`/`diffAddsE`/`diffRemovesE`
mirror `diff`'s body, threading every such error out.  (String index access
never arises: both operands are non-scalar wherever properties are read.)
Proving `diffE` always returns `.ok (diff ...)` shows the scalar guards make
every dereference safe: the JavaScript function can not throw. -/

/-- `keys(x)` from the source with its error case: `Object.keys(null)` throws,
`Object.keys` of any other primitive is `[]`. -/
def keysE : Json → Except String (List String)
  | .null => .error "TypeError: Object.keys called on null"
  | .arr xs => .ok ((List.range xs.length).map natToString)
  | .obj kvs => .ok (kvs.map Prod.fst)
  | _ => .ok []

/-- `x[prop]` with its error case: property access on `null` throws. -/
def jsGetE : Json → String → Except String (Option Json)
  | .null, _ => .error "TypeError: cannot read properties of null"
  | j, s => .ok (jsGet j s)

theorem jsGetE_eq {j : Json} (h : isScalar j = false) (s : String) :
    jsGetE j s = .ok (jsGet j s) := by
  cases j <;> first | rfl | exact absurd h (by simp [isScalar])

theorem jsGetE_ok_some {j : Json} {s : String} {v : Json}
    (h : jsGetE j s = .ok (some v)) : sizeOf v < sizeOf j := by
  cases j with
  | null => exact Except.noConfusion h
  | arr xs =>
    injection h with h
    exact sizeOf_jsGet (show jsGet (Json.arr xs) s = some v from h)
  | obj kvs =>
    injection h with h
    exact sizeOf_jsGet (show jsGet (Json.obj kvs) s = some v from h)
  | bool b => injection h with h; exact Option.noConfusion h
  | num n => injection h with h; exact Option.noConfusion h
  | str s2 => injection h with h; exact Option.noConfusion h

/-- The deletions loop of `diff` with error propagation. -/
def diffRemovesE (next : Json) (props : List String) (path : String) :
    Except String (List Patch) :=
  match props with
  | [] => .ok []
  | prop :: rest =>
    match jsGetE next prop with
    | .error e => .error e
    | .ok nv =>
      match diffRemovesE next rest path with
      | .error e => .error e
      | .ok tail =>
        match nv with
        | none => .ok (⟨.remove, append path prop, none⟩ :: tail)
        | some _ => .ok tail

mutual

/-- `diff` from the source with every possible `TypeError` threaded out. -/
def diffE (prev next : Json) (path : String) : Except String (List Patch) :=
  if jsStrictEq prev next then .ok []
  else if isScalar prev || isScalar next then .ok [⟨.replace, path, some next⟩]
  else
    match keysE next with
    | .error e => .error e
    | .ok propsN =>
      match diffAddsE prev next propsN path with
      | .error e => .error e
      | .ok adds =>
        match keysE prev with
        | .error e => .error e
        | .ok propsP =>
          match diffRemovesE next propsP path with
          | .error e => .error e
          | .ok removes => .ok (adds ++ removes)
  termination_by (sizeOf prev, 1, 0)
  decreasing_by
  · apply Prod.Lex.right
    apply Prod.Lex.left
    exact Nat.zero_lt_one

/-- The additions/changes loop of `diff` with error propagation. -/
def diffAddsE (prev next : Json) (props : List String) (path : String) :
    Except String (List Patch) :=
  match props with
  | [] => .ok []
  | prop :: rest =>
    match h1 : jsGetE prev prop with
    | .error e => .error e
    | .ok none =>
      match jsGetE next prop with
      | .error e => .error e
      | .ok nv =>
        match diffAddsE prev next rest path with
        | .error e => .error e
        | .ok tail => .ok (⟨.add, append path prop, nv⟩ :: tail)
    | .ok (some pv) =>
      match jsGetE next prop with
      | .error e => .error e
      | .ok (some nv) =>
        if typeofObject nv && typeofObject pv then
          match diffE pv nv (append path prop) with
          | .error e => .error e
          | .ok inner =>
            match diffAddsE prev next rest path with
            | .error e => .error e
            | .ok tail => .ok (inner ++ tail)
        else if !jsStrictEq pv nv then
          match diffAddsE prev next rest path with
          | .error e => .error e
          | .ok tail => .ok (⟨.replace, append path prop, some nv⟩ :: tail)
        else diffAddsE prev next rest path
      | .ok none =>
        match diffAddsE prev next rest path with
        | .error e => .error e
        | .ok tail => .ok (⟨.replace, append path prop, none⟩ :: tail)
  termination_by (sizeOf prev, 0, props.length)
  decreasing_by
  all_goals first
  | · apply Prod.Lex.left
      exact jsGetE_ok_some h1
  | · apply Prod.Lex.right
      apply Prod.Lex.right
      simp

end

theorem keysE_eq {j : Json} (h : isScalar j = false) : keysE j = .ok (jsKeys j) := by
  cases j <;> first | rfl | exact absurd h (by simp [isScalar])

theorem diffRemovesE_ok {next : Json} (hn : isScalar next = false)
    (props : List String) (path : String) :
    diffRemovesE next props path = .ok (diffRemoves next props path) := by
  induction props with
  | nil => rfl
  | cons prop rest ih =>
    rw [diffRemovesE, diffRemoves, jsGetE_eq hn, ih]
    cases jsGet next prop <;> rfl

theorem diffAddsE_ok (prev next : Json) (path : String)
    (hp : isScalar prev = false) (hn : isScalar next = false)
    (ih : ∀ pv nv p2, sizeOf pv < sizeOf prev →
      diffE pv nv p2 = .ok (diff pv nv p2)) :
    ∀ props, diffAddsE prev next props path = .ok (diffAdds prev next props path) := by
  intro props
  induction props with
  | nil => rw [diffAddsE, diffAdds]
  | cons prop rest ihrest =>
    rw [diffAddsE, diffAdds_cons]
    cases hj1 : jsGetE prev prop with
    | error e =>
      rw [jsGetE_eq hp] at hj1
      exact Except.noConfusion hj1
    | ok pvo =>
      have hpvo : jsGet prev prop = pvo := by
        rw [jsGetE_eq hp] at hj1
        exact Except.ok.inj hj1
      cases hj2 : jsGetE next prop with
      | error e =>
        rw [jsGetE_eq hn] at hj2
        exact Except.noConfusion hj2
      | ok nvo =>
        have hnvo : jsGet next prop = nvo := by
          rw [jsGetE_eq hn] at hj2
          exact Except.ok.inj hj2
        cases pvo with
        | none =>
          simp only [hpvo, hnvo, ihrest]
          rfl
        | some pv =>
          cases nvo with
          | none =>
            simp only [hpvo, hnvo, ihrest]
            rfl
          | some nv =>
            have hlt : sizeOf pv < sizeOf prev :=
              sizeOf_jsGet (by rw [hpvo] : jsGet prev prop = some pv)
            cases hto : (typeofObject nv && typeofObject pv) with
            | true =>
              simp only [hpvo, hnvo, hto, ih pv nv (append path prop) hlt, ihrest,
                if_true]
            | false =>
              cases hse : jsStrictEq pv nv with
              | true =>
                simp only [hpvo, hnvo, hto, hse, ihrest, Bool.not_true,
                  if_false, Bool.false_eq_true, Bool.true_eq_false]
                rfl
              | false =>
                simp only [hpvo, hnvo, hto, hse, ihrest, Bool.not_false,
                  if_true, if_false, Bool.false_eq_true]
                rfl

theorem diffE_ok_aux : ∀ (n : Nat) (prev next : Json) (path : String), sizeOf prev ≤ n →
    diffE prev next path = .ok (diff prev next path) := by
  intro n
  induction n with
  | zero =>
    intro prev next path hle
    exact absurd hle (by have := sizeOf_json_pos prev; omega)
  | succ m ihm =>
    intro prev next path hle
    by_cases hse : jsStrictEq prev next = true
    · rw [diffE, if_pos hse, diff, if_pos hse]
    · by_cases hsc : (isScalar prev || isScalar next) = true
      · rw [diffE, if_neg hse, if_pos hsc, diff, if_neg hse, if_pos hsc]
      · have hps : isScalar prev = false := by
          cases h : isScalar prev
          · rfl
          · exact absurd hsc (by simp [h])
        have hns : isScalar next = false := by
          cases h : isScalar next
          · rfl
          · exact absurd hsc (by simp [h])
        rw [diffE, if_neg hse, if_neg hsc, diff, if_neg hse, if_neg hsc]
        simp only [keysE_eq hns, keysE_eq hps,
          diffAddsE_ok prev next path hps hns
            (fun pv nv p2 hlt => ihm pv nv p2 (by omega)),
          diffRemovesE_ok hns]

/-- C4: the diff computation is total and never errors.  `diffE` mirrors the
JavaScript `diff` with every operation that can throw a `TypeError`
(`Object.keys` or property access on `null`) made explicit; on every pair of
inputs and every path it returns `.ok` of the pure result — the scalar guards
keep every dereference away from `null`, and the recursion terminates on all
(finite, acyclic) JSON values. -/
theorem diff_total (prev next : Json) (path : String) :
    diffE prev next path = .ok (diff prev next path) :=
  diffE_ok_aux (sizeOf prev) prev next path le_rfl

/-- C5: `append` escapes each `~` of the segment to `~0` and each `/` to
`~1` (character-wise, as JSON Pointer prescribes) before joining with a `/`
separator; in particular key `"a/b~c"` under prefix `""` yields `"/a~1b~0c"`. -/
theorem append_escapes_segments :
    (∀ path prop : String,
      append path prop = path ++ "/" ++ String.mk (escapeSegmentSpec prop.data)) ∧
    append "" "a/b~c" = "/a~1b~0c" := by
  constructor
  · intro path prop
    rw [append, escapeSegment_eq_spec]
  · rfl

/-! ## The schema compiler, value getters and `Enum`

A schema entry (`SchemaInput`) is a literal, one of the built-in constructor
markers (`Boolean`, `Number`, `String`, `Object`/a `JSONElement` subclass,
`Array`/an array literal) or a custom getter function.  A JavaScript `null`
literal is deliberately absent: `typeof null` is `"object"`, so
`isLiteralSchema(null)` is false and `compile(null)` falls through every
branch and throws — `null` is not a usable literal schema.

A compiled getter is modelled as its JavaScript function arity together with
the function itself; an element's slotted children appear as the list of
their assembled JSON values. -/

/-- One entry of a schema declaration, as `compile` classifies its input. -/
inductive SchemaInput where
  | litBool (b : Bool)
  | litNum (n : Int)
  | litStr (s : String)
  | boolCtor
  | numCtor
  | strCtor
  | objectSchema
  | arraySchema
  | custom (arity : Nat) (f : Option String → List Json → Option Json)

/-- A compiled `ValueGetter` with its function arity (`fn.length`). -/
structure Getter where
  arity : Nat
  fn : Option String → List Json → Option Json

/-- `string` from the source: `value => value || undefined`.  A missing
attribute (`null`) and the falsy empty string both give `undefined`. -/
def string (value : Option String) (_els : List Json) : Option Json :=
  match value with
  | some s => if s = "" then none else some (.str s)
  | none => none

/-- `boolean` from the source: `value => value !== null`; always defined. -/
def boolean (value : Option String) (_els : List Json) : Option Json :=
  some (.bool value.isSome)

/-- JavaScript whitespace for the purposes of `Number(string)` trimming. -/
def isWhitespaceChar (c : Char) : Bool :=
  c = ' ' || c = '\t' || c = '\n' || c = '\r' || c = '\x0c' || c = '\x0b'

/-- The numeric value of a list of decimal digits. -/
def digitsVal (ds : List Char) : Nat :=
  ds.foldl (fun acc c => 10 * acc + (c.toNat - '0'.toNat)) 0

/-- `Number(string)` on the decimal-integer fragment: leading and trailing
whitespace is trimmed, the empty remainder converts to `0`, an optionally
signed run of decimal digits converts to its value, and anything else is
`NaN` (`none`).  (Fractional, exponent and radix-prefixed forms are outside
the fragment the properties below quantify over.) -/
def jsStringToNumber (s : String) : Option Int :=
  let t := ((s.data.dropWhile isWhitespaceChar).reverse.dropWhile isWhitespaceChar).reverse
  match t with
  | [] => some 0
  | '-' :: ds => if ds ≠ [] ∧ ds.all Char.isDigit then some (-(digitsVal ds : Int)) else none
  | '+' :: ds => if ds ≠ [] ∧ ds.all Char.isDigit then some (digitsVal ds : Int) else none
  | ds => if ds.all Char.isDigit then some (digitsVal ds : Int) else none

/-- `number` from the source: `null` gives `undefined`, a NaN conversion
gives `undefined`, otherwise the converted number. -/
def number (value : Option String) (_els : List Json) : Option Json :=
  match value with
  | none => none
  | some s => (jsStringToNumber s).map Json.num

/-- `object` from the source: `(_, [el]) => el?.json` — the first slotted
child's JSON, or `undefined` when no child is slotted. -/
def object (_value : Option String) (els : List Json) : Option Json :=
  els.head?

/-- `array` from the source: `(_, els) => els.map(el => el.json)`. -/
def array (_value : Option String) (els : List Json) : Option Json :=
  some (.arr els)

/-- `compile` from the source, with each compiled function's JavaScript
arity: literals compile to zero-argument constant getters, the scalar
coercions take one argument, `object`/`array` take two, a custom function
keeps its own arity. -/
def compile : SchemaInput → Getter
  | .litBool b => ⟨0, fun _ _ => some (.bool b)⟩
  | .litNum n => ⟨0, fun _ _ => some (.num n)⟩
  | .litStr s => ⟨0, fun _ _ => some (.str s)⟩
  | .boolCtor => ⟨1, boolean⟩
  | .numCtor => ⟨1, number⟩
  | .strCtor => ⟨1, string⟩
  | .objectSchema => ⟨2, object⟩
  | .arraySchema => ⟨2, array⟩
  | .custom a f => ⟨a, f⟩

/-- `Enum` from the source: compile every alternative up front, then at read
time try the compiled getters in authoring order and return the first
result that is not `undefined`.  The returned closure takes `(value, els)`,
so its arity is 2. -/
def Enum (schemata : List SchemaInput) : Getter :=
  ⟨2, fun value els => (schemata.map compile).findSome? fun g => g.fn value els⟩

/-- C6: an `Enum` getter evaluates its compiled alternatives strictly in
authoring order and returns the first non-`undefined` result — a
falsy-but-defined result still wins — and yields `undefined` only when every
alternative does.  In particular `Enum(String, Object)` on attribute
`"test"` with no slotted child resolves to `"test"`, and `Enum(Number,
String)` on `"0"` resolves to the falsy-but-defined number `0`. -/
theorem Enum_first_defined_wins :
    (∀ (pre post : List SchemaInput) (s : SchemaInput) (value : Option String)
        (els : List Json) (r : Json),
      (∀ p ∈ pre, (compile p).fn value els = none) →
      (compile s).fn value els = some r →
      (Enum (pre ++ s :: post)).fn value els = some r) ∧
    (∀ (alts : List SchemaInput) (value : Option String) (els : List Json),
      (∀ p ∈ alts, (compile p).fn value els = none) →
      (Enum alts).fn value els = none) ∧
    (Enum [.strCtor, .objectSchema]).fn (some "test") [] = some (.str "test") ∧
    (Enum [.numCtor, .strCtor]).fn (some "0") [] = some (.num 0) := by
  refine ⟨?_, ?_, ?_, ?_⟩
  · intro pre post s value els r hpre hs
    show ((pre ++ s :: post).map compile).findSome? (fun g => g.fn value els) = some r
    induction pre with
    | nil => simp [List.findSome?_cons, hs]
    | cons p rest ih =>
      rw [List.cons_append, List.map_cons, List.findSome?_cons, hpre p (by simp)]
      exact ih fun q hq => hpre q (by simp [hq])
  · intro alts value els hall
    show (alts.map compile).findSome? (fun g => g.fn value els) = none
    induction alts with
    | nil => rfl
    | cons p rest ih =>
      rw [List.map_cons, List.findSome?_cons, hall p (by simp)]
      exact ih fun q hq => hall q (by simp [hq])
  · rfl
  · rfl

theorem Enum_first_defined_wins_witness :
    (string (some "") [] = none) ∧
    (Enum [.strCtor, .numCtor]).fn (some "") [] = some (.num 0) :=
  ⟨rfl, Enum_first_defined_wins.1 [.strCtor] [] .numCtor (some "") [] (.num 0)
    (by intro p hp; simp only [List.mem_singleton] at hp; subst hp; rfl) rfl⟩

/-! ## Assembling the `json` getter's result -/

/-- `isCompositeSchema` applied to a *compiled* getter, as the `json` getter
does: a plain function is composite exactly when its arity is at least 2. -/
def isCompositeGetter (g : Getter) : Bool :=
  decide (2 ≤ g.arity)

/-- The loop of the `json` getter: walk the compiled schema's entries in
order; resolve slotted children only for composite getters; invoke the
getter on the raw attribute value; keep the key only when the result is
defined. `attrs` is `getAttribute` and `slotted` the per-slot-name children. -/
def elementJson (schema : List (String × Getter)) (attrs : String → Option String)
    (slotted : String → List Json) : List (String × Json) :=
  match schema with
  | [] => []
  | (key, g) :: rest =>
    (match g.fn (attrs key) (if isCompositeGetter g then slotted key else []) with
      | some v => [(key, v)]
      | none => []) ++ elementJson rest attrs slotted

/-- C7: the assembled JSON has a key exactly when that key's getter returns
a defined value, and its keys appear in schema declaration order — the
result is pointwise the schema list filtered and mapped by getter
evaluation, independent of anything but the schema order and the per-key
DOM state. -/
theorem json_keys_follow_schema :
    (∀ (schema : List (String × Getter)) (attrs : String → Option String)
        (slotted : String → List Json),
      elementJson schema attrs slotted = schema.filterMap fun kg =>
        (kg.snd.fn (attrs kg.fst)
          (if isCompositeGetter kg.snd then slotted kg.fst else [])).map
          fun v => (kg.fst, v)) ∧
    (∀ (schema : List (String × Getter)) (attrs : String → Option String)
        (slotted : String → List Json) (k : String),
      k ∈ (elementJson schema attrs slotted).map Prod.fst ↔
        ∃ kg ∈ schema, kg.fst = k ∧
          kg.snd.fn (attrs k)
            (if isCompositeGetter kg.snd then slotted k else []) ≠ none) := by
  have hchar : ∀ (schema : List (String × Getter)) (attrs : String → Option String)
      (slotted : String → List Json),
      elementJson schema attrs slotted = schema.filterMap fun kg =>
        (kg.snd.fn (attrs kg.fst)
          (if isCompositeGetter kg.snd then slotted kg.fst else [])).map
          fun v => (kg.fst, v) := by
    intro schema attrs slotted
    induction schema with
    | nil => rfl
    | cons kg rest ih =>
      obtain ⟨key, g⟩ := kg
      rw [elementJson, ih, List.filterMap_cons]
      cases g.fn (attrs key) (if isCompositeGetter g then slotted key else []) <;> rfl
  refine ⟨hchar, ?_⟩
  intro schema attrs slotted k
  rw [hchar]
  constructor
  · intro hm
    simp only [List.mem_map, List.mem_filterMap, Option.map_eq_some'] at hm
    obtain ⟨kv, ⟨kg, hkg, v, hv, hkv⟩, hfst⟩ := hm
    refine ⟨kg, hkg, ?_, ?_⟩
    · rw [← hfst, ← hkv]
    · have : kg.fst = k := by rw [← hfst, ← hkv]
      rw [← this, hv]
      exact Option.noConfusion
  · rintro ⟨kg, hkg, hfst, hne⟩
    cases hv : kg.snd.fn (attrs k) (if isCompositeGetter kg.snd then slotted k else []) with
    | none => exact absurd hv hne
    | some v =>
      refine List.mem_map.mpr ⟨(k, v), List.mem_filterMap.mpr ⟨kg, hkg, ?_⟩, rfl⟩
      rw [hfst, hv]
      rfl

/-! ## Change batching

The notification protocol is the pair `#queue`/`#notify`: `#queue` schedules
one `#notify` microtask only when none is pending (guarded by the `#queued`
flag) and sets the flag; `#notify` clears the flag and dispatches one
`json-change` event.  The state below tracks the flag, the number of queued
`#notify` microtasks, and the number of events dispatched so far; draining
the microtask queue runs every pending `#notify`. -/

structure ElementState where
  queued : Bool
  microtasks : Nat
  notifications : Nat

/-- `#queue` from the source: schedule a `#notify` microtask unless one is
already pending, then mark the element queued.  Dispatches nothing itself. -/
def queueChange (s : ElementState) : ElementState :=
  { s with
    queued := true
    microtasks := if s.queued then s.microtasks else s.microtasks + 1 }

/-- `#notify` from the source: clear the flag and dispatch one event. -/
def notifyChange (s : ElementState) : ElementState :=
  { queued := false
    microtasks := s.microtasks - 1
    notifications := s.notifications + 1 }

/-- Drain the microtask queue: run every pending `#notify`. -/
def drainMicrotasks (s : ElementState) : ElementState :=
  notifyChange^[s.microtasks] s

/-- The idle element: nothing queued, nothing dispatched. -/
def idleState : ElementState := ⟨false, 0, 0⟩

theorem queueChange_iterate (n : Nat) (h : 1 ≤ n) :
    queueChange^[n] idleState = ⟨true, 1, 0⟩ := by
  induction n with
  | zero => omega
  | succ m ih =>
    rw [Function.iterate_succ_apply']
    rcases Nat.eq_or_lt_of_le h with he | hlt
    · rw [show m = 0 by omega]
      rfl
    · rw [ih (by omega)]
      rfl

/-- C8: any number `N ≥ 1` of synchronous change triggers before the
microtask queue drains schedules exactly one `#notify` microtask and
dispatches nothing synchronously; the subsequent drain dispatches exactly
one `json-change` notification. -/
theorem change_batching (n : Nat) (h : 1 ≤ n) :
    (queueChange^[n] idleState).microtasks = 1 ∧
    (queueChange^[n] idleState).notifications = 0 ∧
    (drainMicrotasks (queueChange^[n] idleState)).notifications = 1 := by
  rw [queueChange_iterate n h]
  exact ⟨rfl, rfl, rfl⟩

theorem change_batching_witness :
    1 ≤ 3 ∧ (queueChange^[3] idleState).microtasks = 1 ∧
    (queueChange^[3] idleState).notifications = 0 ∧
    (drainMicrotasks (queueChange^[3] idleState)).notifications = 1 :=
  ⟨by decide, change_batching 3 (by decide)⟩

/-! ## Schema compilation per instance

The constructor walks `Object.entries(schema)` and stores
`compile(value)` into the *instance* field `this.#schema` — one `compile`
call per schema entry on every construction.  `constructInstance` mirrors
that loop, returning the instance's compiled schema together with the
number of `compile` invocations it performed; `totalCompileCalls` sums the
invocations over `n` constructed instances of the same element type. -/

def constructInstance (schema : List (String × SchemaInput)) :
    List (String × Getter) × Nat :=
  schema.foldl (fun acc kv => (acc.1 ++ [(kv.fst, compile kv.snd)], acc.2 + 1)) ([], 0)

def totalCompileCalls : Nat → List (String × SchemaInput) → Nat
  | 0, _ => 0
  | n + 1, schema => totalCompileCalls n schema + (constructInstance schema).2

theorem constructInstance_calls (schema : List (String × SchemaInput)) :
    (constructInstance schema).2 = schema.length := by
  have hgen : ∀ (l : List (String × SchemaInput)) (acc : List (String × Getter) × Nat),
      (l.foldl (fun acc kv => (acc.1 ++ [(kv.fst, compile kv.snd)], acc.2 + 1)) acc).2 =
        acc.2 + l.length := by
    intro l
    induction l with
    | nil => intro acc; rfl
    | cons kv rest ih =>
      intro acc
      rw [List.foldl_cons, ih, List.length_cons]
      omega
  rw [constructInstance, hgen]
  omega

/-- The schema is *not* compiled once per element-type definition: each
construction of an instance compiles every schema entry again.  With a
one-entry schema, constructing two instances invokes `compile` twice. -/
theorem compile_once_counterexample :
    totalCompileCalls 2 [("key", SchemaInput.strCtor)] = 2 ∧ (2 : Nat) ≠ 1 :=
  ⟨rfl, by decide⟩

/-- C9 (amended): schema compilation happens on every construction —
building `n` instances of a type with an `m`-entry schema invokes `compile`
exactly `n * m` times, not `m` times cached per type. -/
theorem compile_calls_per_instance (n : Nat) (schema : List (String × SchemaInput)) :
    totalCompileCalls n schema = n * schema.length := by
  induction n with
  | zero => rw [totalCompileCalls]; ring
  | succ m ih =>
    rw [totalCompileCalls, ih, constructInstance_calls]
    ring

/-- C10: the `number` getter maps a present-but-empty attribute to the
number `0` (`Number("")` is `0`), gives `undefined` only for an absent
(`null`) attribute or a NaN conversion, and so a bare `num=""` attribute
contributes its key with value `0` to the assembled JSON. -/
theorem number_empty_attribute_is_zero :
    number (some "") [] = some (.num 0) ∧
    number none [] = none ∧
    (∀ s : String, jsStringToNumber s = none → number (some s) [] = none) ∧
    (∀ (s : String) (n : Int), jsStringToNumber s = some n →
      number (some s) [] = some (.num n)) ∧
    elementJson [("num", compile .numCtor)] (fun _ => some "") (fun _ => []) =
      [("num", .num 0)] := by
  refine ⟨rfl, rfl, ?_, ?_, rfl⟩
  · intro s h
    show (jsStringToNumber s).map Json.num = none
    rw [h]
    rfl
  · intro s n h
    show (jsStringToNumber s).map Json.num = some (.num n)
    rw [h]
    rfl

theorem number_empty_attribute_is_zero_witness :
    (jsStringToNumber "abc" = none ∧ number (some "abc") [] = none) ∧
    (jsStringToNumber " -42 " = some (-42) ∧ number (some " -42 ") [] = some (.num (-42))) :=
  ⟨⟨rfl, number_empty_attribute_is_zero.2.2.1 "abc" rfl⟩,
   ⟨rfl, number_empty_attribute_is_zero.2.2.2.1 " -42 " (-42) rfl⟩⟩

end JsonElement
